import Mathlib

/-!
Verification development for the OneDrive direct-link converter
(`OneDrive.py`).  The Python source is shallowly embedded: pure string
functions become Lean functions over `String` (logically a `List Char`),
the single outbound network call (`normalize_url`) is abstracted as an
`expand` oracle parameter, and `raise OneDriveLinkError` becomes
`Except String`.  The relevant pieces of `urllib.parse` (`urlparse`,
`parse_qsl`, `urlencode`, `urlunparse`, hostname extraction) are modelled
from the CPython library semantics for strings without control characters;
`str.lower` is modelled for ASCII, which covers every URL the claims
quantify over.
-/

set_option maxHeartbeats 1000000
set_option maxRecDepth 10000

namespace Spec2Proof

/-! ### String plumbing -/

/-- Build a `String` from its character list. -/
def strOf (l : List Char) : String := String.mk l

theorem data_strOf (l : List Char) : (strOf l).data = l := rfl

theorem strOf_data (s : String) : strOf s.data = s := rfl

theorem data_append (s t : String) : (s ++ t).data = s.data ++ t.data := rfl

/-- ASCII lower-casing of one character (models `str.lower` on ASCII). -/
def lowerA (c : Char) : Char :=
  if 'A' ≤ c ∧ c ≤ 'Z' then Char.ofNat (c.toNat + 32) else c

/-- ASCII lower-casing of a character list. -/
def lowerL (l : List Char) : List Char := l.map lowerA

/-- ASCII lower-casing at the `String` level. -/
def strLower (s : String) : String := strOf (lowerL s.data)

/-- Membership test for one character, modelling Python's `c in s`. -/
def containsChar (l : List Char) (c : Char) : Bool := l.any (fun x => x == c)

/-- Split a list at the first occurrence of `sep`: the part before it and,
when `sep` occurs, the part after it.  Models Python `s.split(sep, 1)`
together with the `sep in s` test. -/
def splitOnChar (sep : Char) (l : List Char) : List Char × Option (List Char) :=
  match l.dropWhile (fun c => !(c == sep)) with
  | _ :: rest => (l.takeWhile (fun c => !(c == sep)), some rest)
  | [] => (l, none)

/-- Split a list at every occurrence of `sep`, keeping empty chunks.
Models Python `s.split(sep)`. -/
def splitSep (sep : Char) : List Char → List (List Char)
  | [] => [[]]
  | c :: rest =>
    if c == sep then [] :: splitSep sep rest
    else
      match splitSep sep rest with
      | [] => [[c]]
      | h :: t => (c :: h) :: t

/-! ### Percent decoding (`urllib.parse.unquote`) -/

/-- Hex digit value of a character, if it is one. -/
def hexVal (c : Char) : Option Nat :=
  if '0' ≤ c ∧ c ≤ '9' then some (c.toNat - '0'.toNat)
  else if 'a' ≤ c ∧ c ≤ 'f' then some (c.toNat - 'a'.toNat + 10)
  else if 'A' ≤ c ∧ c ≤ 'F' then some (c.toNat - 'A'.toNat + 10)
  else none

/-- Fuelled scanner splitting a string into literal characters and `%XX`
bytes; an invalid `%` escape is kept literally, as CPython's `unquote`
does.  Each step consumes at least one character. -/
def pctGo : Nat → List Char → List (Sum Char Nat)
  | 0, _ => []
  | _ + 1, [] => []
  | fuel + 1, c :: rest =>
    if c = '%' then
      match rest with
      | c1 :: c2 :: rest2 =>
        match hexVal c1, hexVal c2 with
        | some h1, some h2 => Sum.inr (h1 * 16 + h2) :: pctGo fuel rest2
        | _, _ => Sum.inl '%' :: pctGo fuel (c1 :: c2 :: rest2)
      | r => Sum.inl c :: pctGo fuel r
    else Sum.inl c :: pctGo fuel rest

/-- Scan a string into literal characters and `%XX` bytes. -/
def pctItems (l : List Char) : List (Sum Char Nat) := pctGo l.length l

/-- The U+FFFD replacement character used by `errors='replace'`. -/
def utf8Repl : Char := Char.ofNat 0xFFFD

/-- Second-byte range check for a three-byte UTF-8 sequence. -/
def utf8Snd3 (b b2 : Nat) : Bool :=
  if b = 0xE0 then decide (0xA0 ≤ b2 ∧ b2 ≤ 0xBF)
  else if b = 0xED then decide (0x80 ≤ b2 ∧ b2 ≤ 0x9F)
  else decide (0x80 ≤ b2 ∧ b2 ≤ 0xBF)

/-- Second-byte range check for a four-byte UTF-8 sequence. -/
def utf8Snd4 (b b2 : Nat) : Bool :=
  if b = 0xF0 then decide (0x90 ≤ b2 ∧ b2 ≤ 0xBF)
  else if b = 0xF4 then decide (0x80 ≤ b2 ∧ b2 ≤ 0x8F)
  else decide (0x80 ≤ b2 ∧ b2 ≤ 0xBF)

/-- Continuation-byte check. -/
def utf8Cont (b : Nat) : Bool := decide (0x80 ≤ b ∧ b ≤ 0xBF)

/-- Fuelled UTF-8 decoder with `errors='replace'` repair: each step consumes
at least one byte, so fuel equal to the length suffices. -/
def utf8Go : Nat → List Nat → List Char
  | 0, _ => []
  | _ + 1, [] => []
  | fuel + 1, b :: rest =>
    if b < 0x80 then Char.ofNat b :: utf8Go fuel rest
    else if 0xC2 ≤ b ∧ b ≤ 0xDF then
      match rest with
      | b2 :: rest2 =>
        if utf8Cont b2 then
          Char.ofNat ((b - 0xC0) * 0x40 + (b2 - 0x80)) :: utf8Go fuel rest2
        else utf8Repl :: utf8Go fuel rest
      | [] => [utf8Repl]
    else if 0xE0 ≤ b ∧ b ≤ 0xEF then
      match rest with
      | b2 :: rest2 =>
        if utf8Snd3 b b2 then
          match rest2 with
          | b3 :: rest3 =>
            if utf8Cont b3 then
              Char.ofNat ((b - 0xE0) * 0x1000 + (b2 - 0x80) * 0x40 + (b3 - 0x80)) ::
                utf8Go fuel rest3
            else utf8Repl :: utf8Go fuel rest2
          | [] => [utf8Repl]
        else utf8Repl :: utf8Go fuel rest
      | [] => [utf8Repl]
    else if 0xF0 ≤ b ∧ b ≤ 0xF4 then
      match rest with
      | b2 :: rest2 =>
        if utf8Snd4 b b2 then
          match rest2 with
          | b3 :: rest3 =>
            if utf8Cont b3 then
              match rest3 with
              | b4 :: rest4 =>
                if utf8Cont b4 then
                  Char.ofNat ((b - 0xF0) * 0x40000 + (b2 - 0x80) * 0x1000 +
                      (b3 - 0x80) * 0x40 + (b4 - 0x80)) :: utf8Go fuel rest4
                else utf8Repl :: utf8Go fuel rest3
              | [] => [utf8Repl]
            else utf8Repl :: utf8Go fuel rest2
          | [] => [utf8Repl]
        else utf8Repl :: utf8Go fuel rest
      | [] => [utf8Repl]
    else utf8Repl :: utf8Go fuel rest

/-- Decode a byte list as UTF-8 with replacement on errors, modelling
`bytes.decode('utf-8', errors='replace')`. -/
def utf8DecodeReplace (bs : List Nat) : List Char := utf8Go bs.length bs

/-- Re-assemble the scan result: maximal runs of `%XX` bytes are decoded as
UTF-8, literal characters pass through. -/
def emitRuns : List (Sum Char Nat) → List Nat → List Char
  | [], acc => utf8DecodeReplace acc.reverse
  | Sum.inl c :: rest, acc => utf8DecodeReplace acc.reverse ++ c :: emitRuns rest []
  | Sum.inr b :: rest, acc => emitRuns rest (b :: acc)

/-- Percent-decoding, modelling `urllib.parse.unquote` with the default
UTF-8/replace error handling. -/
def pyUnquote (l : List Char) : List Char := emitRuns (pctItems l) []

/-- Replace `+` by a space, the first step of `parse_qsl`'s decoding. -/
def plusToSpace (l : List Char) : List Char :=
  l.map fun c => if c == '+' then ' ' else c

/-- The `+`-then-percent decoding applied by `parse_qsl` to names/values. -/
def unquotePlus (l : List Char) : List Char := pyUnquote (plusToSpace l)

/-! ### `parse_qsl` and `urlencode` -/

/-- Handle one `&`-separated chunk as CPython `parse_qsl` does with the
default `keep_blank_values=False`: empty chunks, chunks without `=`, and
chunks with an empty value are all skipped; kept names and values are
`+`/percent decoded. -/
def parseQslPiece (piece : List Char) : Option (List Char × List Char) :=
  if piece = [] then none
  else
    let sp := splitOnChar '=' piece
    match sp.2 with
    | none => none
    | some value =>
      if value = [] then none
      else some (unquotePlus sp.1, unquotePlus value)

/-- `urllib.parse.parse_qsl` with default arguments (separator `&`). -/
def parse_qsl (qs : List Char) : List (List Char × List Char) :=
  (splitSep '&' qs).filterMap parseQslPiece

/-- String-level `parse_qsl`, as the application calls it. -/
def pyParseQslStr (qs : String) : List (String × String) :=
  (parse_qsl qs.data).map fun p => (strOf p.1, strOf p.2)

/-- Characters never quoted by `urllib.parse.quote`: ASCII alphanumerics
and `_.-~`. -/
def alwaysSafe (c : Char) : Bool :=
  c.isAlpha || c.isDigit || c == '_' || c == '.' || c == '-' || c == '~'

/-- Upper-case hex digit. -/
def hexDigitU (n : Nat) : Char :=
  if n < 10 then Char.ofNat ('0'.toNat + n) else Char.ofNat ('A'.toNat + (n - 10))

/-- UTF-8 encoding of one character's code point. -/
def utf8EncodeChar (c : Char) : List Nat :=
  let n := c.toNat
  if n < 0x80 then [n]
  else if n < 0x800 then [0xC0 + n / 0x40, 0x80 + n % 0x40]
  else if n < 0x10000 then [0xE0 + n / 0x1000, 0x80 + n / 0x40 % 0x40, 0x80 + n % 0x40]
  else [0xF0 + n / 0x40000, 0x80 + n / 0x1000 % 0x40, 0x80 + n / 0x40 % 0x40,
        0x80 + n % 0x40]

/-- Percent-escape of one byte. -/
def pctByte (b : Nat) : List Char := ['%', hexDigitU (b / 16), hexDigitU (b % 16)]

/-- `urllib.parse.quote_plus` with `safe=''`: safe characters pass, a space
becomes `+`, everything else is percent-escaped bytewise. -/
def quotePlus (l : List Char) : List Char :=
  (l.map fun c =>
    if alwaysSafe c then [c]
    else if c == ' ' then ['+']
    else ((utf8EncodeChar c).map pctByte).flatten).flatten

/-- Join `name=value` chunks with `&`, the shape produced by `urlencode`
(and consumed back by `parse_qsl`). -/
def joinAmp : List (List Char × List Char) → List Char
  | [] => []
  | [p] => p.1 ++ '=' :: p.2
  | p :: ps => p.1 ++ '=' :: p.2 ++ '&' :: joinAmp ps

/-- `urllib.parse.urlencode` on string pairs (with `doseq=True`, string
values are quoted exactly as without it). -/
def urlencode (ps : List (String × String)) : String :=
  strOf (joinAmp (ps.map fun p => (quotePlus p.1.data, quotePlus p.2.data)))

/-! ### Python `dict` built from a pair list -/

/-- One `dict` assignment `d[k] = v`: overwrite in place if the key exists,
else append.  Insertion order is preserved, as for Python 3.7+ dicts. -/
def dictInsert (d : List (String × String)) (k v : String) : List (String × String) :=
  if d.any (fun p => p.1 == k) then
    d.map (fun p => if p.1 == k then (k, v) else p)
  else d ++ [(k, v)]

/-- `dict(pairs)`: fold the assignments left to right. -/
def dictOfList (ps : List (String × String)) : List (String × String) :=
  ps.foldl (fun d p => dictInsert d p.1 p.2) []

/-- `d[k]` combined with the `k in d` test. -/
def pyGet : List (String × String) → String → Option String
  | [], _ => none
  | p :: d, k => if p.1 == k then some p.2 else pyGet d k

/-! ### `urlparse` / `urlunparse` -/

/-- The six components returned by `urllib.parse.urlparse`. -/
structure UrlParts where
  scheme : String
  netloc : String
  path : String
  params : String
  query : String
  fragment : String
deriving DecidableEq

/-- Characters allowed in a scheme after the first. -/
def schemeChar (c : Char) : Bool := c.isAlpha || c.isDigit || c == '+' || c == '-' || c == '.'

/-- Whether the first character is an ASCII letter. -/
def firstAlpha : List Char → Bool
  | c :: _ => c.isAlpha
  | [] => false

/-- Scheme splitting step of `urlsplit`: the part before the first `:` is a
scheme when it starts with a letter and uses only scheme characters; it is
returned lower-cased. -/
def splitScheme (url : List Char) : List Char × List Char :=
  let sp := splitOnChar ':' url
  match sp.2 with
  | some rest =>
    if firstAlpha sp.1 && sp.1.all schemeChar then (lowerL sp.1, rest)
    else ([], url)
  | none => ([], url)

/-- A character that stays inside the netloc component. -/
def netChar (c : Char) : Bool := !(c == '/' || c == '?' || c == '#')

/-- Netloc splitting step of `urlsplit`: after a leading `//`, the netloc
runs to the first of `/`, `?`, `#`. -/
def splitNetloc : List Char → List Char × List Char
  | '/' :: '/' :: rest => (rest.takeWhile netChar, rest.dropWhile netChar)
  | l => ([], l)

/-- The final `/`-separated segment of a path (empty if no `/`). -/
def lastSegment (l : List Char) : List Char :=
  (l.reverse.takeWhile (fun c => !(c == '/'))).reverse

/-- Everything up to and including the last `/` of a path. -/
def beforeLastSegment (l : List Char) : List Char :=
  (l.reverse.dropWhile (fun c => !(c == '/'))).reverse

/-- `urllib.parse._splitparams`: split at the first `;` of the last path
segment (or of the whole string when there is no `/`). -/
def splitParams (pathStr : List Char) : List Char × List Char :=
  if containsChar pathStr '/' then
    match splitOnChar ';' (lastSegment pathStr) with
    | (a, some b) => (beforeLastSegment pathStr ++ a, b)
    | (_, none) => (pathStr, [])
  else
    match splitOnChar ';' pathStr with
    | (a, some b) => (a, b)
    | (_, none) => (pathStr, [])

/-- `urllib.parse.urlparse` for strings without control characters: scheme,
then `//netloc`, then fragment after the first `#`, then query after the
first `?`, then `;params` split out of the last path segment. -/
def urlparse (url : String) : UrlParts :=
  let s1 := splitScheme url.data
  let s2 := splitNetloc s1.2
  let s3 := splitOnChar '#' s2.2
  let fragment := s3.2.getD []
  let s4 := splitOnChar '?' s3.1
  let query := s4.2.getD []
  let pp := if containsChar s4.1 ';' then splitParams s4.1 else (s4.1, [])
  ⟨strOf s1.1, strOf s2.1, strOf pp.1, strOf pp.2, strOf query, strOf fragment⟩

/-- The part of a netloc after the last `@` (drops userinfo). -/
def afterLastAt (l : List Char) : List Char :=
  (l.reverse.takeWhile (fun c => !(c == '@'))).reverse

/-- `urlparse(url).hostname or ""`: strip userinfo and port, handle the
bracketed IPv6 form, and lower-case. -/
def pyHostname (url : String) : String :=
  let netloc := (urlparse url).netloc.data
  let hostinfo := afterLastAt netloc
  let host :=
    if containsChar hostinfo '[' then
      ((splitOnChar '[' hostinfo).2.getD []).takeWhile (fun c => !(c == ']'))
    else hostinfo.takeWhile (fun c => !(c == ':'))
  strOf (lowerL host)

/-- `urllib.parse.urlunparse`: re-attach `;params`, then `//netloc`
(prepending `/` to a relative path), then `scheme:`, then `?query`, then
`#fragment`, each only when non-empty. -/
def urlunparse (u : UrlParts) : String :=
  let url0 := if u.params.data ≠ [] then u.path.data ++ ';' :: u.params.data else u.path.data
  let url1 :=
    if u.netloc.data ≠ [] ∨ (url0 ≠ [] ∧ url0.take 2 = ['/', '/']) then
      '/' :: '/' :: (u.netloc.data ++
        (if url0 ≠ [] ∧ url0.take 1 ≠ ['/'] then '/' :: url0 else url0))
    else url0
  let url2 := if u.scheme.data ≠ [] then u.scheme.data ++ ':' :: url1 else url1
  let url3 := if u.query.data ≠ [] then url2 ++ '?' :: u.query.data else url2
  let url4 := if u.fragment.data ≠ [] then url3 ++ '#' :: u.fragment.data else url3
  strOf url4

/-! ### `OneDrive.py`: host classification -/

/-- The recognized host suffixes of `is_onedrive_supported_host`. -/
def supportedSuffixes : List String :=
  ["1drv.ms", "onedrive.live.com", "sharepoint.com", "my.sharepoint.com",
   "sharepoint.cn", "my.sharepoint.cn"]

/-- `is_onedrive_supported_host`: the lower-cased hostname must be non-empty
and end with a recognized suffix. -/
def is_onedrive_supported_host (url : String) : Bool :=
  let host := lowerL (pyHostname url).data
  if host = [] then false
  else supportedSuffixes.any (fun sfx => decide (List.IsSuffix sfx.data host))

/-- `is_folder_link`: the lower-cased path contains `:f:`, `:b:` or
`forms/allitems.aspx`. -/
def is_folder_link (url : String) : Bool :=
  let pathLower := lowerL (urlparse url).path.data
  decide (List.IsInfix ":f:".data pathLower) ||
    decide (List.IsInfix ":b:".data pathLower) ||
    decide (List.IsInfix "forms/allitems.aspx".data pathLower)

/-! ### `OneDrive.py`: enterprise rewrite (`convert_sharepoint_to_direct_link`) -/

/-- The literal prefix of the pattern `/:u:/g/personal/([^/]+)/([^/?#]+)`. -/
def sharePatLit : List Char := "/:u:/g/personal/".data

/-- Character class `[^/]` of the first capture group. -/
def userChar (c : Char) : Bool := !(c == '/')

/-- Character class `[^/?#]` of the second capture group. -/
def tokChar (c : Char) : Bool := !(c == '/' || c == '?' || c == '#')

/-- Match the regex `/:u:/g/personal/([^/]+)/([^/?#]+)` anchored at the head
of `cs`: the literal, then a maximal non-empty run of non-`/` characters,
then `/`, then a maximal non-empty run of `[^/?#]` characters.  (With a
fixed start, greedy matching with backtracking forces exactly these maximal
runs.) -/
def matchShareAt (cs : List Char) : Option (List Char × List Char) :=
  if List.IsPrefix sharePatLit cs then
    let rest := cs.drop sharePatLit.length
    let user := rest.takeWhile userChar
    match rest.dropWhile userChar with
    | '/' :: rest2 =>
      let token := rest2.takeWhile tokChar
      if user = [] ∨ token = [] then none else some (user, token)
    | _ => none
  else none

/-- `re.search` of the pattern: try each start position left to right. -/
def searchShare : List Char → Option (List Char × List Char)
  | [] => none
  | c :: rest =>
    match matchShareAt (c :: rest) with
    | some r => some r
    | none => searchShare rest

/-- The error message raised when the path does not fit the pattern. -/
def sharePointErrMsg (url : String) : String :=
  "请使用标准的 OneDrive/SharePoint 分享链接。\n支持格式: https://domain/:u:/g/personal/用户名/分享token\n当前链接: " ++ url

/-- `convert_sharepoint_to_direct_link`: search the parsed path for the
share pattern and rebuild the `/_layouts/52/download.aspx?share=` link from
the netloc, user and token; otherwise raise. -/
def convert_sharepoint_to_direct_link (url : String) : Except String String :=
  let parsed := urlparse url
  let domain := parsed.netloc
  let path := parsed.path
  match searchShare path.data with
  | some (user, token) =>
    Except.ok ("https://" ++ domain ++ "/personal/" ++ strOf user ++
      "/_layouts/52/download.aspx?share=" ++ strOf token)
  | none => Except.error (sharePointErrMsg url)

/-! ### `OneDrive.py`: personal rewrite and fallback -/

/-- `ensure_download_param_fallback`: re-parse the query into a dict, add
`download=1` unless a case-insensitively named `download` key exists, and
re-serialize the URL. -/
def ensure_download_param_fallback (url : String) : String :=
  let parsed := urlparse url
  let query_pairs := dictOfList (pyParseQslStr parsed.query)
  let query_pairs2 :=
    if query_pairs.any (fun p => strLower p.1 == "download") then query_pairs
    else dictInsert query_pairs "download" "1"
  let new_query := urlencode query_pairs2
  urlunparse ⟨parsed.scheme, parsed.netloc, parsed.path, parsed.params,
    new_query, parsed.fragment⟩

/-- `convert_personal_onedrive_to_direct_link`: `redeem` first, then
`resid`+`authkey`, then the `download=1` fallback. -/
def convert_personal_onedrive_to_direct_link (url : String) : String :=
  let parsed := urlparse url
  let query_params := dictOfList (pyParseQslStr parsed.query)
  match pyGet query_params "redeem" with
  | some redeem_value => "https://dlink.host/1drv/" ++ redeem_value
  | none =>
    match pyGet query_params "resid", pyGet query_params "authkey" with
    | some file_id, some authkey =>
      "https://onedrive.live.com/download?resid=" ++ file_id ++ "&authkey=" ++ authkey
    | _, _ => ensure_download_param_fallback url

/-! ### `OneDrive.py`: top-level classifier (`parse_onedrive_direct_link`) -/

/-- The malformed-input error message. -/
def malformedMsg : String := "请输入以 http:// 或 https:// 开头的分享链接"

/-- The unsupported-host error message. -/
def unsupportedMsg : String := "不支持的链接域名：仅支持 OneDrive/SharePoint/世纪互联分享链接"

/-- `re.match(r"^https?://", url, re.IGNORECASE)` as a prefix test on the
ASCII-lower-cased input. -/
def startsHttpScheme (s : String) : Bool :=
  decide (List.IsPrefix "http://".data (lowerL s.data)) ||
    decide (List.IsPrefix "https://".data (lowerL s.data))

/-- The substring test of step 3: the lower-cased netloc contains
`sharepoint.com`, `sharepoint.cn` or `my.sharepoint`. -/
def isSharePointNetloc (url : String) : Bool :=
  let host := lowerL (urlparse url).netloc.data
  ["sharepoint.com", "sharepoint.cn", "my.sharepoint"].any
    (fun d => decide (List.IsInfix d.data host))

/-- `parse_onedrive_direct_link`, with the network redirect expansion
(`normalize_url`) abstracted as the `expand` oracle: scheme check, host
check, then either the enterprise rewrite on the original URL or the
personal rewrite on the expanded URL. -/
def parse_onedrive_direct_link (expand : String → Except String String)
    (input_url : String) : Except String String :=
  if !(startsHttpScheme input_url) then Except.error malformedMsg
  else if !(is_onedrive_supported_host input_url) then Except.error unsupportedMsg
  else if isSharePointNetloc input_url then
    convert_sharepoint_to_direct_link input_url
  else
    Except.map convert_personal_onedrive_to_direct_link (expand input_url)

/-! ### `OneDrive.py`: history store (`save_history`) -/

/-- One history record (`{id, url, remark, timestamp, original_url}`). -/
structure HistoryItem where
  id : Int
  url : String
  remark : String
  timestamp : String
  original_url : String
deriving DecidableEq

/-- Index of the first element satisfying `p`, modelling
`next((i for i, item in enumerate(xs) if p(item)), -1)`. -/
def findFirstIdx {α : Type} (p : α → Bool) : List α → Option Nat
  | [] => none
  | a :: l => if p a then some 0 else (findFirstIdx p l).map (· + 1)

/-- The pure state update of the `save_history` handler: overwrite the first
entry with the same `url` (else insert at the front), then trim to the 100
most recent entries. -/
def save_history_update (history : List HistoryItem) (item : HistoryItem) :
    List HistoryItem :=
  let history2 :=
    match findFirstIdx (fun e => e.url == item.url) history with
    | some i => history.set i item
    | none => item :: history
  if history2.length > 100 then history2.take 100 else history2

/-! ### Spec-side predicate for the enterprise path pattern -/

/-- A path contains the share pattern: somewhere in it, the literal
`/:u:/g/personal/` followed by a non-empty run of non-`/` characters, a
`/`, and a non-empty run of characters outside `/?#`.  This is exactly
"`re.search` of the pattern succeeds", stated without reference to the
matcher. -/
def sharePathPattern (path : List Char) : Prop :=
  ∃ pre user token rest,
    path = pre ++ (sharePatLit ++ (user ++ '/' :: (token ++ rest))) ∧
    user ≠ [] ∧ (∀ c ∈ user, userChar c = true) ∧
    token ≠ [] ∧ (∀ c ∈ token, tokChar c = true)

/-! ### Generic take/drop lemmas -/

theorem takeWhile_all {α : Type} {p : α → Bool} {l : List α}
    (h : ∀ c ∈ l, p c = true) : l.takeWhile p = l := by
  induction l with
  | nil => rfl
  | cons a t ih =>
    have ha := h a (List.mem_cons_self a t)
    simp [List.takeWhile_cons, ha, ih (fun c hc => h c (List.mem_cons_of_mem a hc))]

theorem dropWhile_all {α : Type} {p : α → Bool} {l : List α}
    (h : ∀ c ∈ l, p c = true) : l.dropWhile p = [] := by
  induction l with
  | nil => rfl
  | cons a t ih =>
    have ha := h a (List.mem_cons_self a t)
    simp [List.dropWhile_cons, ha, ih (fun c hc => h c (List.mem_cons_of_mem a hc))]

theorem takeWhile_append_stop {α : Type} {p : α → Bool} {xs ys : List α} {y : α}
    (hxs : ∀ c ∈ xs, p c = true) (hy : p y = false) :
    (xs ++ y :: ys).takeWhile p = xs := by
  induction xs with
  | nil => simp [List.takeWhile_cons, hy]
  | cons a t ih =>
    have ha := hxs a (List.mem_cons_self a t)
    simp [List.cons_append, List.takeWhile_cons, ha,
      ih (fun c hc => hxs c (List.mem_cons_of_mem a hc))]

theorem dropWhile_append_stop {α : Type} {p : α → Bool} {xs ys : List α} {y : α}
    (hxs : ∀ c ∈ xs, p c = true) (hy : p y = false) :
    (xs ++ y :: ys).dropWhile p = y :: ys := by
  induction xs with
  | nil => simp [List.dropWhile_cons, hy]
  | cons a t ih =>
    have ha := hxs a (List.mem_cons_self a t)
    simp [List.cons_append, List.dropWhile_cons, ha,
      ih (fun c hc => hxs c (List.mem_cons_of_mem a hc))]

/-! ### `splitOnChar` and `splitSep` lemmas -/

theorem notBeq_of_ne {c sep : Char} (h : c ≠ sep) : (!(c == sep)) = true := by
  simp [h]

theorem splitOnChar_not_mem {sep : Char} {l : List Char} (h : sep ∉ l) :
    splitOnChar sep l = (l, none) := by
  unfold splitOnChar
  rw [dropWhile_all (fun c hc => notBeq_of_ne (fun e => h (by rwa [e] at hc)))]

theorem splitOnChar_append {sep : Char} {xs ys : List Char} (h : sep ∉ xs) :
    splitOnChar sep (xs ++ sep :: ys) = (xs, some ys) := by
  unfold splitOnChar
  rw [dropWhile_append_stop (fun c hc => notBeq_of_ne (fun e => h (by rwa [e] at hc))) (by simp),
    takeWhile_append_stop (fun c hc => notBeq_of_ne (fun e => h (by rwa [e] at hc))) (by simp)]

theorem splitSep_not_mem {sep : Char} {xs : List Char} (h : sep ∉ xs) :
    splitSep sep xs = [xs] := by
  induction xs with
  | nil => rfl
  | cons c t ih =>
    have hc : (c == sep) = false := by
      simp only [beq_eq_false_iff_ne, ne_eq]
      exact fun e => h (by rw [e]; exact List.mem_cons_self _ _)
    simp [splitSep, hc, ih (fun m => h (List.mem_cons_of_mem c m))]

theorem splitSep_append {sep : Char} {xs ys : List Char} (h : sep ∉ xs) :
    splitSep sep (xs ++ sep :: ys) = xs :: splitSep sep ys := by
  induction xs with
  | nil => simp [splitSep]
  | cons c t ih =>
    have hc : (c == sep) = false := by
      simp only [beq_eq_false_iff_ne, ne_eq]
      exact fun e => h (by rw [e]; exact List.mem_cons_self _ _)
    simp [splitSep, hc, ih (fun m => h (List.mem_cons_of_mem c m))]

/-! ### Decode/encode identity on plain characters -/

theorem pctGo_no_pct : ∀ (fuel : Nat) (l : List Char), l.length ≤ fuel →
    (∀ c ∈ l, c ≠ '%') → pctGo fuel l = l.map Sum.inl := by
  intro fuel
  induction fuel with
  | zero =>
    intro l hl _
    have : l = [] := List.eq_nil_of_length_eq_zero (Nat.le_zero.1 hl)
    simp [this, pctGo]
  | succ n ih =>
    intro l hl h
    match l with
    | [] => rfl
    | c :: t =>
      have hc : c ≠ '%' := h c (List.mem_cons_self c t)
      have hlen : t.length ≤ n := by
        have := hl
        simp only [List.length_cons] at this
        omega
      have iht := ih t hlen (fun c hc => h c (List.mem_cons_of_mem _ hc))
      simp [pctGo, hc, iht]

theorem pctItems_no_pct {l : List Char} (h : ∀ c ∈ l, c ≠ '%') :
    pctItems l = l.map Sum.inl :=
  pctGo_no_pct l.length l (Nat.le_refl _) h

theorem emitRuns_inl (l : List Char) : emitRuns (l.map Sum.inl) [] = l := by
  induction l with
  | nil => rfl
  | cons c t ih => simp [emitRuns, utf8DecodeReplace, utf8Go, ih]

theorem pyUnquote_id {l : List Char} (h : ∀ c ∈ l, c ≠ '%') : pyUnquote l = l := by
  rw [pyUnquote, pctItems_no_pct h, emitRuns_inl]

theorem plusToSpace_id {l : List Char} (h : ∀ c ∈ l, c ≠ '+') : plusToSpace l = l := by
  unfold plusToSpace
  induction l with
  | nil => rfl
  | cons c t ih =>
    have hc : (c == '+') = false := by
      simp only [beq_eq_false_iff_ne, ne_eq]
      exact h c (List.mem_cons_self c t)
    rw [List.map_cons]
    congr 1
    · simp [hc]
    · exact ih (fun c hcm => h c (List.mem_cons_of_mem _ hcm))

theorem unquotePlus_id {l : List Char} (h : ∀ c ∈ l, c ≠ '%' ∧ c ≠ '+') :
    unquotePlus l = l := by
  rw [unquotePlus, plusToSpace_id (fun c hc => (h c hc).2),
    pyUnquote_id (fun c hc => (h c hc).1)]

theorem quotePlus_id {l : List Char} (h : ∀ c ∈ l, alwaysSafe c = true) :
    quotePlus l = l := by
  unfold quotePlus
  induction l with
  | nil => rfl
  | cons c t ih =>
    simp only [List.map_cons, h c (List.mem_cons_self c t), if_true, List.flatten_cons,
      ih (fun c hc => h c (List.mem_cons_of_mem _ hc)), List.singleton_append]

/-! ### `parse_qsl` on a well-formed query -/

/-- A plain query character: not a separator and not subject to decoding. -/
abbrev qsChar (c : Char) : Prop := c ≠ '&' ∧ c ≠ '=' ∧ c ≠ '%' ∧ c ≠ '+'

theorem parseQslPiece_pair {k v : List Char} (hk : ∀ c ∈ k, qsChar c)
    (hv : ∀ c ∈ v, qsChar c) :
    parseQslPiece (k ++ '=' :: v) = if v = [] then none else some (k, v) := by
  have hs : splitOnChar '=' (k ++ '=' :: v) = (k, some v) :=
    splitOnChar_append (fun hm => (hk _ hm).2.1 rfl)
  by_cases hv0 : v = []
  · subst hv0
    simp [parseQslPiece, hs]
  · simp [parseQslPiece, hs, hv0,
      unquotePlus_id (fun c hc => ⟨(hk c hc).2.2.1, (hk c hc).2.2.2⟩),
      unquotePlus_id (fun c hc => ⟨(hv c hc).2.2.1, (hv c hc).2.2.2⟩)]

theorem amp_not_mem_chunk {k v : List Char} (hk : ∀ c ∈ k, qsChar c)
    (hv : ∀ c ∈ v, qsChar c) : '&' ∉ k ++ '=' :: v := by
  intro hm
  rcases List.mem_append.1 hm with h1 | h1
  · exact (hk _ h1).1 rfl
  · rcases List.mem_cons.1 h1 with h2 | h2
    · exact absurd h2.symm (by decide)
    · exact (hv _ h2).1 rfl

theorem parse_qsl_joinAmp : ∀ (ps : List (List Char × List Char)),
    (∀ p ∈ ps, (∀ c ∈ p.1, qsChar c) ∧ (∀ c ∈ p.2, qsChar c)) →
    parse_qsl (joinAmp ps) = ps.filter (fun p => !(p.2 == []))
  | [], _ => rfl
  | [p], h => by
    obtain ⟨hk, hv⟩ := h p (List.mem_cons_self p [])
    rw [joinAmp, parse_qsl, splitSep_not_mem (amp_not_mem_chunk hk hv),
      List.filterMap_cons, parseQslPiece_pair hk hv]
    by_cases hv0 : p.2 = [] <;> simp [hv0, List.filter_cons]
  | p :: q :: ps, h => by
    obtain ⟨hk, hv⟩ := h p (List.mem_cons_self p _)
    have hrest := fun r hr => h r (List.mem_cons_of_mem p hr)
    have ihq := parse_qsl_joinAmp (q :: ps) hrest
    have hchunk : joinAmp (p :: q :: ps) = (p.1 ++ '=' :: p.2) ++ '&' :: joinAmp (q :: ps) := by
      rw [joinAmp]
      simp
    rw [parse_qsl, hchunk, splitSep_append (amp_not_mem_chunk hk hv),
      List.filterMap_cons, parseQslPiece_pair hk hv]
    rw [parse_qsl] at ihq
    by_cases hv0 : p.2 = []
    · rw [if_pos hv0, ihq]
      conv_rhs => rw [List.filter_cons]
      have hb : (!(p.2 == [])) = false := by simp [hv0]
      rw [hb]
      simp
    · rw [if_neg hv0, ihq]
      conv_rhs => rw [List.filter_cons]
      have hb : (!(p.2 == [])) = true := by simp [hv0]
      rw [hb]
      simp

/-! ### The string-level query round trip -/

/-- The `name=value&...` serialization of string pairs, i.e. what
`urlencode` produces when every character is URL-safe. -/
def joinQuery (ps : List (String × String)) : String :=
  strOf (joinAmp (ps.map fun p => (p.1.data, p.2.data)))

theorem map_pair_strOf_filter (ps : List (String × String)) :
    ((ps.map (fun p => (p.1.data, p.2.data))).filter (fun p => !(p.2 == []))).map
      (fun p => (strOf p.1, strOf p.2)) = ps.filter (fun p => !(p.2 == "")) := by
  induction ps with
  | nil => rfl
  | cons p t ih =>
    by_cases h : p.2 = ""
    · have h2 : p.2.data = [] := by rw [h]
      simp only [List.map_cons, List.filter_cons]
      simp [h, h2]
      simpa using ih
    · have h2 : p.2.data ≠ [] := fun e => h (by
        have := congrArg strOf e; rwa [strOf_data] at this)
      simp only [List.map_cons, List.filter_cons]
      simp [h, h2, strOf_data]
      simpa using ih

theorem pyParseQslStr_joinQuery (ps : List (String × String))
    (h : ∀ p ∈ ps, (∀ c ∈ p.1.data, qsChar c) ∧ (∀ c ∈ p.2.data, qsChar c)) :
    pyParseQslStr (joinQuery ps) = ps.filter (fun p => !(p.2 == "")) := by
  unfold pyParseQslStr joinQuery
  rw [data_strOf, parse_qsl_joinAmp _ (by
    intro p hp
    obtain ⟨r, hr, he⟩ := List.mem_map.1 hp
    exact he ▸ h r hr)]
  exact map_pair_strOf_filter ps

/-! ### Python `dict` lemmas -/

theorem dictInsert_fresh {d : List (String × String)} {k v : String}
    (h : ∀ p ∈ d, p.1 ≠ k) : dictInsert d k v = d ++ [(k, v)] := by
  unfold dictInsert
  rw [if_neg]
  simp only [List.any_eq_true, beq_iff_eq, not_exists]
  intro p
  intro hp
  exact absurd hp.2 (h p hp.1)

theorem dictOfList_aux (ps : List (String × String)) :
    ∀ acc, (ps.map Prod.fst).Nodup → (∀ p ∈ ps, ∀ q ∈ acc, q.1 ≠ p.1) →
    ps.foldl (fun d p => dictInsert d p.1 p.2) acc = acc ++ ps := by
  induction ps with
  | nil => intro acc _ _; simp
  | cons p t ih =>
    intro acc hnd hdisj
    rw [List.foldl_cons, dictInsert_fresh (fun q hq => hdisj p (List.mem_cons_self p t) q hq)]
    have hnd' : (t.map Prod.fst).Nodup := (List.nodup_cons.1 (by simpa using hnd)).2
    have hhead : p.1 ∉ t.map Prod.fst := (List.nodup_cons.1 (by simpa using hnd)).1
    rw [ih (acc ++ [(p.1, p.2)]) hnd' (by
      intro r hr q hq
      rcases List.mem_append.1 hq with hq1 | hq1
      · exact hdisj r (List.mem_cons_of_mem p hr) q hq1
      · have : q = (p.1, p.2) := by simpa using hq1
        rw [this]
        intro e
        exact hhead (e ▸ List.mem_map_of_mem Prod.fst hr))]
    simp

theorem dictOfList_nodup (ps : List (String × String))
    (hnd : (ps.map Prod.fst).Nodup) : dictOfList ps = ps := by
  unfold dictOfList
  rw [dictOfList_aux ps [] hnd (by intro p _ q hq; exact absurd hq (List.not_mem_nil q))]
  simp

theorem pyGet_not_mem {d : List (String × String)} {k : String}
    (h : ∀ p ∈ d, p.1 ≠ k) : pyGet d k = none := by
  induction d with
  | nil => rfl
  | cons p t ih =>
    rw [pyGet, if_neg (by simp; exact h p (List.mem_cons_self p t))]
    exact ih (fun q hq => h q (List.mem_cons_of_mem p hq))

theorem pyGet_append_not {d l : List (String × String)} {k : String}
    (h : ∀ p ∈ d, p.1 ≠ k) : pyGet (d ++ l) k = pyGet l k := by
  induction d with
  | nil => rfl
  | cons p t ih =>
    rw [List.cons_append, pyGet, if_neg (by simp; exact h p (List.mem_cons_self p t))]
    exact ih (fun q hq => h q (List.mem_cons_of_mem p hq))

theorem pyGet_overwrite {d : List (String × String)} {k v : String}
    (h : d.any (fun p => p.1 == k) = true) :
    pyGet (d.map (fun p => if p.1 == k then (k, v) else p)) k = some v := by
  induction d with
  | nil => simp at h
  | cons p t ih =>
    by_cases hp : p.1 = k
    · simp [pyGet, hp]
    · have hp' : (p.1 == k) = false := by simp [hp]
      rw [List.map_cons, if_neg (by simp [hp]), pyGet, if_neg (by simp [hp])]
      apply ih
      rcases List.any_eq_true.1 h with ⟨q, hq, hqk⟩
      rcases List.mem_cons.1 hq with e | hq2
      · exact absurd (by simpa using (e ▸ hqk : (p.1 == k) = true)) hp
      · exact List.any_eq_true.2 ⟨q, hq2, hqk⟩

theorem pyGet_dictInsert_self (d : List (String × String)) (k v : String) :
    pyGet (dictInsert d k v) k = some v := by
  unfold dictInsert
  by_cases h : d.any (fun p => p.1 == k) = true
  · rw [if_pos h]; exact pyGet_overwrite h
  · rw [if_neg h, pyGet_append_not (by
      intro p hp e
      exact h (List.any_eq_true.2 ⟨p, hp, by simp [e]⟩))]
    simp [pyGet]

theorem pyGet_map_ne {d : List (String × String)} {k v k' : String} (h : k' ≠ k) :
    pyGet (d.map (fun p => if p.1 == k then (k, v) else p)) k' = pyGet d k' := by
  induction d with
  | nil => rfl
  | cons p t ih =>
    rw [List.map_cons]
    by_cases hp : p.1 = k
    · rw [if_pos (by simp [hp]), pyGet, pyGet,
        if_neg (show ¬ ((k, v).1 == k') = true by simp; exact fun e => h e.symm),
        if_neg (show ¬ (p.1 == k') = true by simp [hp]; exact fun e => h e.symm), ih]
    · rw [if_neg (by simp [hp]), pyGet, pyGet]
      by_cases hq : p.1 = k'
      · simp [hq]
      · rw [if_neg (by simp [hq]), if_neg (by simp [hq]), ih]

theorem pyGet_dictInsert_ne (d : List (String × String)) (k v k' : String)
    (h : k' ≠ k) : pyGet (dictInsert d k v) k' = pyGet d k' := by
  unfold dictInsert
  by_cases hany : (d.any fun p => p.1 == k) = true
  · rw [if_pos hany, pyGet_map_ne h]
  · rw [if_neg hany]
    clear hany
    induction d with
    | nil => simp [pyGet, Ne.symm h]
    | cons p t ih =>
      rw [List.cons_append, pyGet, pyGet]
      by_cases hp : p.1 = k'
      · simp [hp]
      · rw [if_neg (by simp [hp]), if_neg (by simp [hp]), ih]

theorem pyGet_foldl_not_mem (ps : List (String × String)) :
    ∀ (d : List (String × String)) (k : String), (∀ p ∈ ps, p.1 ≠ k) →
    pyGet (ps.foldl (fun d p => dictInsert d p.1 p.2) d) k = pyGet d k := by
  induction ps with
  | nil => intro d k _; rfl
  | cons p t ih =>
    intro d k h
    rw [List.foldl_cons, ih _ k (fun q hq => h q (List.mem_cons_of_mem p hq)),
      pyGet_dictInsert_ne _ _ _ _ (fun e => h p (List.mem_cons_self p t) e.symm)]

theorem pyGet_dictOfList_last (ps1 ps2 : List (String × String)) (k v : String)
    (h2 : ∀ p ∈ ps2, p.1 ≠ k) :
    pyGet (dictOfList (ps1 ++ (k, v) :: ps2)) k = some v := by
  unfold dictOfList
  rw [List.foldl_append, List.foldl_cons, pyGet_foldl_not_mem ps2 _ k h2,
    pyGet_dictInsert_self]

theorem pyGet_dictOfList_none (ps : List (String × String)) (k : String)
    (h : ∀ p ∈ ps, p.1 ≠ k) : pyGet (dictOfList ps) k = none := by
  unfold dictOfList
  rw [pyGet_foldl_not_mem ps [] k h]
  rfl

/-! ### `urlparse` on assembled URLs -/

theorem containsChar_false {l : List Char} {c : Char} (h : c ∉ l) :
    containsChar l c = false := by
  unfold containsChar
  rw [List.any_eq_false]
  intro x hx
  simp only [beq_iff_eq]
  exact fun e => h (by rwa [e] at hx)

theorem containsChar_true {l : List Char} {c : Char} (h : c ∈ l) :
    containsChar l c = true := by
  unfold containsChar
  exact List.any_eq_true.2 ⟨c, h, by simp⟩

theorem splitScheme_https (rest : List Char) :
    splitScheme ("https:".data ++ rest) = ("https".data, rest) := by
  have hs : splitOnChar ':' ("https:".data ++ rest) = ("https".data, some rest) := by
    have he : "https:".data ++ rest = "https".data ++ ':' :: rest := rfl
    rw [he]
    exact splitOnChar_append (by decide)
  unfold splitScheme
  rw [hs]
  dsimp only
  rw [if_pos (by decide), show lowerL "https".data = "https".data from by decide]

theorem splitNetloc_double_slash (rest : List Char) :
    splitNetloc ('/' :: '/' :: rest) = (rest.takeWhile netChar, rest.dropWhile netChar) := rfl

theorem splitParams_no_semicolon_lastseg {xs token : List Char}
    (ht : '/' ∉ token) (hs : ';' ∉ token) :
    splitParams (xs ++ '/' :: token) = (xs ++ '/' :: token, []) := by
  have hmem : containsChar (xs ++ '/' :: token) '/' = true :=
    containsChar_true (List.mem_append.2 (Or.inr (List.mem_cons_self _ _)))
  have hrev : (xs ++ '/' :: token).reverse = token.reverse ++ '/' :: xs.reverse := by
    simp
  have hlast : lastSegment (xs ++ '/' :: token) = token := by
    unfold lastSegment
    rw [hrev, takeWhile_append_stop (fun c hc => notBeq_of_ne
      (fun e => ht (by rw [← e]; exact List.mem_reverse.1 hc))) (by simp), List.reverse_reverse]
  have hsoc : splitOnChar ';' token = (token, none) := splitOnChar_not_mem hs
  simp [splitParams, hmem, hlast, hsoc]

/-- Characters that survive in the path component and trigger no further
splitting. -/
abbrev plainPathChar (c : Char) : Prop := c ≠ '?' ∧ c ≠ '#' ∧ c ≠ ';'

theorem urlparse_https_q_frag (host path query frag : String) (t : List Char)
    (hh : ∀ c ∈ host.data, netChar c = true)
    (hpath : path.data = '/' :: t)
    (hp : ∀ c ∈ path.data, plainPathChar c)
    (hq : '#' ∉ query.data) :
    urlparse ("https://" ++ host ++ path ++ "?" ++ query ++ "#" ++ frag) =
      ⟨"https", host, path, "", query, frag⟩ := by
  have hud : ("https://" ++ host ++ path ++ "?" ++ query ++ "#" ++ frag).data
      = "https:".data ++ ('/' :: '/' ::
        (host.data ++ ('/' :: (t ++ '?' :: (query.data ++ '#' :: frag.data))))) := by
    simp [data_append, hpath]
  have hpt : ∀ c ∈ '/' :: t, plainPathChar c := by rw [← hpath]; exact hp
  have htw : (host.data ++ '/' :: (t ++ '?' :: (query.data ++ '#' :: frag.data))).takeWhile
      netChar = host.data := takeWhile_append_stop hh (by decide)
  have hdw : (host.data ++ '/' :: (t ++ '?' :: (query.data ++ '#' :: frag.data))).dropWhile
      netChar = '/' :: (t ++ '?' :: (query.data ++ '#' :: frag.data)) :=
    dropWhile_append_stop hh (by decide)
  have hnotf : '#' ∉ '/' :: (t ++ '?' :: query.data) := by
    intro hm
    rcases List.mem_cons.1 hm with e | hm2
    · exact absurd e (by decide)
    rcases List.mem_append.1 hm2 with h1 | h1
    · exact ((hpt _ (List.mem_cons_of_mem _ h1)).2.1) rfl
    rcases List.mem_cons.1 h1 with e | h2
    · exact absurd e (by decide)
    · exact hq h2
  have h3 : splitOnChar '#' ('/' :: (t ++ '?' :: (query.data ++ '#' :: frag.data)))
      = ('/' :: (t ++ '?' :: query.data), some frag.data) := by
    have he : '/' :: (t ++ '?' :: (query.data ++ '#' :: frag.data))
        = ('/' :: (t ++ '?' :: query.data)) ++ '#' :: frag.data := by simp
    rw [he]
    exact splitOnChar_append hnotf
  have hnotq : '?' ∉ ('/' :: t : List Char) := by
    intro hm
    exact (hpt _ hm).1 rfl
  have h4 : splitOnChar '?' ('/' :: (t ++ '?' :: query.data))
      = ('/' :: t, some query.data) := by
    have he : '/' :: (t ++ '?' :: query.data) = ('/' :: t) ++ '?' :: query.data := by simp
    rw [he]
    exact splitOnChar_append hnotq
  have h5 : containsChar ('/' :: t) ';' = false :=
    containsChar_false (fun hm => (hpt _ hm).2.2 rfl)
  unfold urlparse
  rw [hud, splitScheme_https]
  dsimp only
  rw [splitNetloc_double_slash, htw, hdw]
  dsimp only
  rw [h3]
  dsimp only
  rw [h4]
  dsimp only
  rw [h5]
  simp only [Bool.false_eq_true, if_false]
  rw [← hpath]
  simp [strOf_data]
  exact ⟨by decide, by decide⟩

theorem urlparse_https_q (host path query : String) (t : List Char)
    (hh : ∀ c ∈ host.data, netChar c = true)
    (hpath : path.data = '/' :: t)
    (hp : ∀ c ∈ path.data, plainPathChar c)
    (hq : '#' ∉ query.data) :
    urlparse ("https://" ++ host ++ path ++ "?" ++ query) =
      ⟨"https", host, path, "", query, ""⟩ := by
  have hud : ("https://" ++ host ++ path ++ "?" ++ query).data
      = "https:".data ++ ('/' :: '/' ::
        (host.data ++ ('/' :: (t ++ '?' :: query.data)))) := by
    simp [data_append, hpath]
  have hpt : ∀ c ∈ '/' :: t, plainPathChar c := by rw [← hpath]; exact hp
  have htw : (host.data ++ '/' :: (t ++ '?' :: query.data)).takeWhile netChar = host.data :=
    takeWhile_append_stop hh (by decide)
  have hdw : (host.data ++ '/' :: (t ++ '?' :: query.data)).dropWhile netChar
      = '/' :: (t ++ '?' :: query.data) := dropWhile_append_stop hh (by decide)
  have hnotf : '#' ∉ '/' :: (t ++ '?' :: query.data) := by
    intro hm
    rcases List.mem_cons.1 hm with e | hm2
    · exact absurd e (by decide)
    rcases List.mem_append.1 hm2 with h1 | h1
    · exact ((hpt _ (List.mem_cons_of_mem _ h1)).2.1) rfl
    rcases List.mem_cons.1 h1 with e | h2
    · exact absurd e (by decide)
    · exact hq h2
  have h3 : splitOnChar '#' ('/' :: (t ++ '?' :: query.data))
      = ('/' :: (t ++ '?' :: query.data), none) := splitOnChar_not_mem hnotf
  have hnotq : '?' ∉ ('/' :: t : List Char) := fun hm => (hpt _ hm).1 rfl
  have h4 : splitOnChar '?' ('/' :: (t ++ '?' :: query.data))
      = ('/' :: t, some query.data) := by
    have he : '/' :: (t ++ '?' :: query.data) = ('/' :: t) ++ '?' :: query.data := by simp
    rw [he]
    exact splitOnChar_append hnotq
  have h5 : containsChar ('/' :: t) ';' = false :=
    containsChar_false (fun hm => (hpt _ hm).2.2 rfl)
  unfold urlparse
  rw [hud, splitScheme_https]
  dsimp only
  rw [splitNetloc_double_slash, htw, hdw]
  dsimp only
  rw [h3]
  dsimp only
  rw [h4]
  dsimp only
  rw [h5]
  simp only [Bool.false_eq_true, if_false]
  rw [← hpath]
  simp [strOf_data]
  exact ⟨by decide, by decide⟩

theorem urlparse_https_plain (host path : String) (t : List Char)
    (hh : ∀ c ∈ host.data, netChar c = true)
    (hpath : path.data = '/' :: t)
    (hp : ∀ c ∈ path.data, plainPathChar c) :
    urlparse ("https://" ++ host ++ path) = ⟨"https", host, path, "", "", ""⟩ := by
  have hud : ("https://" ++ host ++ path).data
      = "https:".data ++ ('/' :: '/' :: (host.data ++ ('/' :: t))) := by
    simp [data_append, hpath]
  have hpt : ∀ c ∈ '/' :: t, plainPathChar c := by rw [← hpath]; exact hp
  have htw : (host.data ++ '/' :: t).takeWhile netChar = host.data :=
    takeWhile_append_stop hh (by decide)
  have hdw : (host.data ++ '/' :: t).dropWhile netChar = '/' :: t :=
    dropWhile_append_stop hh (by decide)
  have h3 : splitOnChar '#' ('/' :: t) = ('/' :: t, none) :=
    splitOnChar_not_mem (fun hm => (hpt _ hm).2.1 rfl)
  have h4 : splitOnChar '?' ('/' :: t) = ('/' :: t, none) :=
    splitOnChar_not_mem (fun hm => (hpt _ hm).1 rfl)
  have h5 : containsChar ('/' :: t) ';' = false :=
    containsChar_false (fun hm => (hpt _ hm).2.2 rfl)
  unfold urlparse
  rw [hud, splitScheme_https]
  dsimp only
  rw [splitNetloc_double_slash, htw, hdw]
  dsimp only
  rw [h3]
  dsimp only
  rw [h4]
  dsimp only
  rw [h5]
  simp only [Bool.false_eq_true, if_false]
  rw [← hpath]
  simp [strOf_data]
  exact ⟨by decide, by decide⟩

/-! ### `urlunparse` on plain components -/

theorem urlunparse_https_frag (host path query frag : String) (t : List Char)
    (hh : host.data ≠ []) (hpath : path.data = '/' :: t)
    (hq : query.data ≠ []) (hf : frag.data ≠ []) :
    urlunparse ⟨"https", host, path, "", query, frag⟩ =
      "https://" ++ host ++ path ++ "?" ++ query ++ "#" ++ frag := by
  unfold urlunparse
  simp [hpath, hh, hq, hf]
  have hr : ("https://" ++ host ++ path ++ "?" ++ query ++ "#" ++ frag)
      = strOf ("https://" ++ host ++ path ++ "?" ++ query ++ "#" ++ frag).data := rfl
  rw [hr]
  apply congrArg strOf
  simp [data_append, hpath]

theorem urlunparse_https_nofrag (host path query : String) (t : List Char)
    (hh : host.data ≠ []) (hpath : path.data = '/' :: t)
    (hq : query.data ≠ []) :
    urlunparse ⟨"https", host, path, "", query, ""⟩ =
      "https://" ++ host ++ path ++ "?" ++ query := by
  unfold urlunparse
  simp [hpath, hh, hq]
  have hr : ("https://" ++ host ++ path ++ "?" ++ query)
      = strOf ("https://" ++ host ++ path ++ "?" ++ query).data := rfl
  rw [hr]
  apply congrArg strOf
  simp [data_append, hpath]

/-! ### The share-pattern matcher -/

theorem mem_takeWhile {α : Type} {p : α → Bool} :
    ∀ {l : List α} {c : α}, c ∈ l.takeWhile p → p c = true := by
  intro l
  induction l with
  | nil => intro c hc; simp [List.takeWhile] at hc
  | cons a t ih =>
    intro c hc
    rw [List.takeWhile_cons] at hc
    by_cases ha : p a = true
    · rw [ha] at hc
      simp only [if_true] at hc
      rcases List.mem_cons.1 hc with e | hm
      · rwa [e]
      · exact ih hm
    · rw [Bool.not_eq_true] at ha
      rw [ha] at hc
      simp at hc

theorem takeWhile_append_all {α : Type} {p : α → Bool} {xs ys : List α}
    (h : ∀ c ∈ xs, p c = true) :
    (xs ++ ys).takeWhile p = xs ++ ys.takeWhile p := by
  induction xs with
  | nil => rfl
  | cons a t ih =>
    have ha := h a (List.mem_cons_self a t)
    simp [List.takeWhile_cons, ha, ih (fun c hc => h c (List.mem_cons_of_mem a hc))]

theorem matchShareAt_isSome_of_shape {user token rest : List Char}
    (hu : user ≠ []) (huc : ∀ c ∈ user, userChar c = true)
    (ht : token ≠ []) (htc : ∀ c ∈ token, tokChar c = true) :
    (matchShareAt (sharePatLit ++ (user ++ '/' :: (token ++ rest)))).isSome = true := by
  have h1 : (user ++ '/' :: (token ++ rest)).takeWhile userChar = user :=
    takeWhile_append_stop huc (by decide)
  have h2 : (user ++ '/' :: (token ++ rest)).dropWhile userChar = '/' :: (token ++ rest) :=
    dropWhile_append_stop huc (by decide)
  have h3 : (token ++ rest).takeWhile tokChar = token ++ rest.takeWhile tokChar :=
    takeWhile_append_all htc
  unfold matchShareAt
  rw [if_pos ⟨user ++ '/' :: (token ++ rest), rfl⟩, List.drop_left]
  simp [h1, h2, h3, hu, ht]

theorem matchShareAt_exact {user token : List Char}
    (hu : user ≠ []) (huc : ∀ c ∈ user, userChar c = true)
    (ht : token ≠ []) (htc : ∀ c ∈ token, tokChar c = true) :
    matchShareAt (sharePatLit ++ (user ++ '/' :: token)) = some (user, token) := by
  have h1 : (user ++ '/' :: token).takeWhile userChar = user :=
    takeWhile_append_stop huc (by decide)
  have h2 : (user ++ '/' :: token).dropWhile userChar = '/' :: token :=
    dropWhile_append_stop huc (by decide)
  have h3 : token.takeWhile tokChar = token := takeWhile_all htc
  unfold matchShareAt
  rw [if_pos ⟨user ++ '/' :: token, rfl⟩, List.drop_left]
  simp [h1, h2, h3, hu, ht]

theorem matchShareAt_some_shape {cs : List Char} {r : List Char × List Char}
    (h : matchShareAt cs = some r) :
    ∃ user token rest, cs = sharePatLit ++ (user ++ '/' :: (token ++ rest)) ∧
      user ≠ [] ∧ (∀ c ∈ user, userChar c = true) ∧
      token ≠ [] ∧ (∀ c ∈ token, tokChar c = true) := by
  unfold matchShareAt at h
  by_cases hpre : List.IsPrefix sharePatLit cs
  · rw [if_pos hpre] at h
    obtain ⟨suf, hsuf⟩ := hpre
    have hdropeq : cs.drop sharePatLit.length = suf := by
      rw [← hsuf, List.drop_left]
    rw [hdropeq] at h
    dsimp only at h
    split at h
    · rename_i rest2 hdw
      by_cases hg : suf.takeWhile userChar = [] ∨ rest2.takeWhile tokChar = []
      · rw [if_pos hg] at h
        exact absurd h (by simp)
      · rw [if_neg hg] at h
        rw [not_or] at hg
        refine ⟨suf.takeWhile userChar, rest2.takeWhile tokChar, rest2.dropWhile tokChar,
          ?_, hg.1, fun c hc => mem_takeWhile hc, hg.2, fun c hc => mem_takeWhile hc⟩
        rw [← hsuf]
        congr 1
        calc suf = suf.takeWhile userChar ++ suf.dropWhile userChar :=
              (List.takeWhile_append_dropWhile userChar suf).symm
          _ = suf.takeWhile userChar ++ '/' :: rest2 := by rw [hdw]
          _ = suf.takeWhile userChar ++ '/' ::
                (rest2.takeWhile tokChar ++ rest2.dropWhile tokChar) := by
              rw [List.takeWhile_append_dropWhile]
    · exact absurd h (by simp)
  · rw [if_neg hpre] at h
    exact absurd h (by simp)

theorem matchShareAt_nil : matchShareAt [] = none := by decide

theorem searchShare_isSome_of_drop {cs : List Char} {n : Nat}
    (h : (matchShareAt (cs.drop n)).isSome = true) : (searchShare cs).isSome = true := by
  induction cs generalizing n with
  | nil =>
    rw [List.drop_nil, matchShareAt_nil] at h
    simp at h
  | cons c rest ih =>
    unfold searchShare
    cases hm : matchShareAt (c :: rest) with
    | some r => simp
    | none =>
      simp only [hm]
      cases n with
      | zero =>
        rw [List.drop_zero, hm] at h
        simp at h
      | succ m =>
        rw [List.drop_succ_cons] at h
        exact ih h

theorem searchShare_isSome_drop {cs : List Char} (h : (searchShare cs).isSome = true) :
    ∃ n, (matchShareAt (cs.drop n)).isSome = true := by
  induction cs with
  | nil => simp [searchShare] at h
  | cons c rest ih =>
    unfold searchShare at h
    cases hm : matchShareAt (c :: rest) with
    | some r => exact ⟨0, by simp [hm]⟩
    | none =>
      rw [hm] at h
      obtain ⟨n, hn⟩ := ih h
      exact ⟨n + 1, by rwa [List.drop_succ_cons]⟩

theorem searchShare_isSome_iff_pattern (path : List Char) :
    (searchShare path).isSome = true ↔ sharePathPattern path := by
  constructor
  · intro h
    obtain ⟨n, hn⟩ := searchShare_isSome_drop h
    cases hm : matchShareAt (path.drop n) with
    | none => rw [hm] at hn; simp at hn
    | some r =>
      obtain ⟨user, token, rest, he, h1, h2, h3, h4⟩ := matchShareAt_some_shape hm
      refine ⟨path.take n, user, token, rest, ?_, h1, h2, h3, h4⟩
      rw [← he]
      exact (List.take_append_drop n path).symm
  · rintro ⟨pre, user, token, rest, he, h1, h2, h3, h4⟩
    apply searchShare_isSome_of_drop (n := pre.length)
    have hd : path.drop pre.length = sharePatLit ++ (user ++ '/' :: (token ++ rest)) := by
      rw [he, List.drop_left]
    rw [hd]
    exact matchShareAt_isSome_of_shape h1 h2 h3 h4

/-- `urlparse` on `https://host/:u:/g/personal/<user>/<token>`-shaped URLs:
the path may contain `;` in the user segment, but the last segment (the
token) is `;`-free, so the params split leaves the path unchanged. -/
theorem urlparse_https_lastseg (host path : String) (t xs token : List Char)
    (hh : ∀ c ∈ host.data, netChar c = true)
    (hpath : path.data = '/' :: t)
    (hp : ∀ c ∈ path.data, c ≠ '?' ∧ c ≠ '#')
    (hshape : path.data = xs ++ '/' :: token)
    (ht : '/' ∉ token) (hts : ';' ∉ token) :
    urlparse ("https://" ++ host ++ path) = ⟨"https", host, path, "", "", ""⟩ := by
  have hud : ("https://" ++ host ++ path).data
      = "https:".data ++ ('/' :: '/' :: (host.data ++ ('/' :: t))) := by
    simp [data_append, hpath]
  have hpt : ∀ c ∈ '/' :: t, c ≠ '?' ∧ c ≠ '#' := by rw [← hpath]; exact hp
  have htw : (host.data ++ '/' :: t).takeWhile netChar = host.data :=
    takeWhile_append_stop hh (by decide)
  have hdw : (host.data ++ '/' :: t).dropWhile netChar = '/' :: t :=
    dropWhile_append_stop hh (by decide)
  have h3 : splitOnChar '#' ('/' :: t) = ('/' :: t, none) :=
    splitOnChar_not_mem (fun hm => (hpt _ hm).2 rfl)
  have h4 : splitOnChar '?' ('/' :: t) = ('/' :: t, none) :=
    splitOnChar_not_mem (fun hm => (hpt _ hm).1 rfl)
  have hsp : splitParams ('/' :: t) = ('/' :: t, []) := by
    rw [← hpath, hshape]
    exact splitParams_no_semicolon_lastseg ht hts
  unfold urlparse
  rw [hud, splitScheme_https]
  dsimp only
  rw [splitNetloc_double_slash, htw, hdw]
  dsimp only
  rw [h3]
  dsimp only
  rw [h4]
  dsimp only
  rw [hsp]
  simp only [ite_self]
  rw [← hpath]
  simp [strOf_data]
  exact ⟨by decide, by decide⟩

/-- Claim C1 (amended): for a URL `https://<host>/:u:/g/personal/<user>/<token>`
whose `<user>` is a non-empty run of characters outside `/?#` and whose
`<token>` is a non-empty run of characters outside `/?#;`, the enterprise
rewrite returns exactly
`https://<host>/personal/<user>/_layouts/52/download.aspx?share=<token>`.
(The exclusion of `;` from the token is forced by `urlparse`'s params
split, see `claim_C1_counterexample`.) -/
theorem claim_C1_enterprise_rewrite (host user token : String)
    (hh : ∀ c ∈ host.data, netChar c = true)
    (hu0 : user.data ≠ [])
    (hu : ∀ c ∈ user.data, c ≠ '/' ∧ c ≠ '?' ∧ c ≠ '#')
    (ht0 : token.data ≠ [])
    (ht : ∀ c ∈ token.data, c ≠ '/' ∧ c ≠ '?' ∧ c ≠ '#' ∧ c ≠ ';') :
    convert_sharepoint_to_direct_link
        ("https://" ++ host ++ ("/:u:/g/personal/" ++ user ++ "/" ++ token))
      = Except.ok ("https://" ++ host ++ "/personal/" ++ user ++
          "/_layouts/52/download.aspx?share=" ++ token) := by
  have hpath : ("/:u:/g/personal/" ++ user ++ "/" ++ token).data
      = '/' :: (":u:/g/personal/".data ++ (user.data ++ '/' :: token.data)) := by
    simp [data_append]
  have hshape : ("/:u:/g/personal/" ++ user ++ "/" ++ token).data
      = ("/:u:/g/personal/".data ++ user.data) ++ '/' :: token.data := by
    simp [data_append]
  have hlits : ∀ c ∈ "/:u:/g/personal/".data, c ≠ '?' ∧ c ≠ '#' := by decide
  have hp : ∀ c ∈ ("/:u:/g/personal/" ++ user ++ "/" ++ token).data, c ≠ '?' ∧ c ≠ '#' := by
    rw [hshape]
    intro c hc
    rcases List.mem_append.1 hc with h1 | h1
    · rcases List.mem_append.1 h1 with h2 | h2
      · exact hlits c h2
      · exact ⟨(hu c h2).2.1, (hu c h2).2.2⟩
    · rcases List.mem_cons.1 h1 with e | h2
      · subst e; exact ⟨by decide, by decide⟩
      · exact ⟨(ht c h2).2.1, (ht c h2).2.2.1⟩
  have hparse := urlparse_https_lastseg host ("/:u:/g/personal/" ++ user ++ "/" ++ token)
    (":u:/g/personal/".data ++ (user.data ++ '/' :: token.data))
    ("/:u:/g/personal/".data ++ user.data) token.data hh hpath hp hshape
    (fun hm => (ht _ hm).1 rfl) (fun hm => (ht _ hm).2.2.2 rfl)
  have hsearch : searchShare ("/:u:/g/personal/" ++ user ++ "/" ++ token).data
      = some (user.data, token.data) := by
    have hps : ("/:u:/g/personal/" ++ user ++ "/" ++ token).data
        = sharePatLit ++ (user.data ++ '/' :: token.data) := by
      simp [data_append, sharePatLit]
    rw [hps]
    have hm := matchShareAt_exact hu0 (fun c hc => by simp [userChar]; exact (hu c hc).1)
      ht0 (fun c hc => by
        simp [tokChar]
        exact ⟨⟨(ht c hc).1, (ht c hc).2.1⟩, (ht c hc).2.2.1⟩)
    have hcons : sharePatLit ++ (user.data ++ '/' :: token.data)
        = '/' :: (":u:/g/personal/".data ++ (user.data ++ '/' :: token.data)) := by
      simp [sharePatLit]
    rw [hcons]
    unfold searchShare
    rw [← hcons, hm]
  unfold convert_sharepoint_to_direct_link
  rw [hparse]
  dsimp only
  rw [hsearch]
  rfl

/-- Claim C1 as literally stated fails: in
`https://…/:u:/g/personal/alice_contoso_cn/tok;en` the token `tok;en` is a
maximal run of characters outside `/?#`, yet the code emits `share=tok`
because `urlparse` moves `;en` into the params component. -/
theorem claim_C1_counterexample :
    convert_sharepoint_to_direct_link
        "https://contoso-my.sharepoint.cn/:u:/g/personal/alice_contoso_cn/tok;en"
      = Except.ok
        "https://contoso-my.sharepoint.cn/personal/alice_contoso_cn/_layouts/52/download.aspx?share=tok"
    ∧ ("https://contoso-my.sharepoint.cn/personal/alice_contoso_cn/_layouts/52/download.aspx?share=tok"
        : String)
      ≠ "https://contoso-my.sharepoint.cn/personal/alice_contoso_cn/_layouts/52/download.aspx?share=tok;en" := by
  exact ⟨rfl, by decide⟩

/-- Witness for C1 (amended): the spec's own enterprise example evaluates to
exactly the documented output. -/
theorem claim_C1_witness :
    convert_sharepoint_to_direct_link
        "https://contoso-my.sharepoint.cn/:u:/g/personal/alice_contoso_cn/XY16c5xGfSxDn91zeEE3A2UBVpoPOzfNzUEDW6dQ"
      = Except.ok
        "https://contoso-my.sharepoint.cn/personal/alice_contoso_cn/_layouts/52/download.aspx?share=XY16c5xGfSxDn91zeEE3A2UBVpoPOzfNzUEDW6dQ" :=
  claim_C1_enterprise_rewrite "contoso-my.sharepoint.cn" "alice_contoso_cn"
    "XY16c5xGfSxDn91zeEE3A2UBVpoPOzfNzUEDW6dQ"
    (by decide) (by decide) (by decide) (by decide) (by decide)

theorem isInfix_append_right {l m r : List Char} (h : List.IsInfix l m) :
    List.IsInfix l (m ++ r) := by
  obtain ⟨s, t, hst⟩ := h
  exact ⟨s, t ++ r, by rw [← hst]; simp⟩

/-- Claim C8: the enterprise rewrite fails exactly when the parsed path
nowhere contains the `/:u:/g/personal/<user>/<token>` shape, and the error
message then names the expected format and echoes the offending URL. -/
theorem claim_C8_enterprise_failure (url : String) :
    (∃ msg, convert_sharepoint_to_direct_link url = Except.error msg ∧
        List.IsInfix url.data msg.data ∧
        List.IsInfix "https://domain/:u:/g/personal/".data msg.data) ↔
      ¬ sharePathPattern (urlparse url).path.data := by
  cases hs : searchShare (urlparse url).path.data with
  | some r =>
    have hpat : sharePathPattern (urlparse url).path.data :=
      (searchShare_isSome_iff_pattern _).1 (by simp [hs])
    constructor
    · rintro ⟨msg, hmsg, _, _⟩
      exfalso
      obtain ⟨u, tk⟩ := r
      unfold convert_sharepoint_to_direct_link at hmsg
      dsimp only at hmsg
      rw [hs] at hmsg
      exact Except.noConfusion hmsg
    · intro hnp
      exact absurd hpat hnp
  | none =>
    have herr : convert_sharepoint_to_direct_link url
        = Except.error (sharePointErrMsg url) := by
      unfold convert_sharepoint_to_direct_link
      dsimp only
      rw [hs]
    constructor
    · intro _ hp
      have hsome := (searchShare_isSome_iff_pattern _).2 hp
      rw [hs] at hsome
      simp at hsome
    · intro _
      refine ⟨sharePointErrMsg url, herr, ?_, ?_⟩
      · exact ⟨("请使用标准的 OneDrive/SharePoint 分享链接。\n支持格式: https://domain/:u:/g/personal/用户名/分享token\n当前链接: " : String).data,
          [], by simp [sharePointErrMsg, data_append]⟩
      · apply isInfix_append_right
        decide

/-- Witness instantiation for C8 at a concrete enterprise URL lacking the
pattern: the error fires, carries the URL, and the path indeed has no
pattern occurrence. -/
theorem claim_C8_witness :
    (∃ msg, convert_sharepoint_to_direct_link "https://contoso-my.sharepoint.cn/stuff/file.docx"
        = Except.error msg ∧
        List.IsInfix "https://contoso-my.sharepoint.cn/stuff/file.docx".data msg.data ∧
        List.IsInfix "https://domain/:u:/g/personal/".data msg.data) ↔
      ¬ sharePathPattern (urlparse "https://contoso-my.sharepoint.cn/stuff/file.docx").path.data :=
  claim_C8_enterprise_failure "https://contoso-my.sharepoint.cn/stuff/file.docx"

/-- Claim C2: once the scheme and host checks pass, classification applies
the enterprise rule to the original URL when the lower-cased netloc
contains a SharePoint marker (no use of the redirect expander), and
otherwise expands first and applies the personal rule to the result. -/
theorem claim_C2_routing (expand : String → Except String String) (url : String)
    (h1 : startsHttpScheme url = true)
    (h2 : is_onedrive_supported_host url = true) :
    (isSharePointNetloc url = true →
      parse_onedrive_direct_link expand url = convert_sharepoint_to_direct_link url) ∧
    (isSharePointNetloc url = false →
      parse_onedrive_direct_link expand url =
        Except.map convert_personal_onedrive_to_direct_link (expand url)) := by
  unfold parse_onedrive_direct_link
  constructor <;> intro h3 <;> simp [h1, h2, h3]

/-- Witness for C2: an enterprise URL routes to the sharepoint rule even
when the expander would fail, and a personal URL routes through the
expander into the personal rule. -/
theorem claim_C2_witness :
    (parse_onedrive_direct_link (fun _ => Except.error "network unavailable")
        "https://contoso-my.sharepoint.cn/:u:/g/personal/alice_contoso_cn/XY16"
      = convert_sharepoint_to_direct_link
        "https://contoso-my.sharepoint.cn/:u:/g/personal/alice_contoso_cn/XY16") ∧
    (parse_onedrive_direct_link (fun s => Except.ok s) "https://1drv.ms/u/sAbc"
      = Except.map convert_personal_onedrive_to_direct_link (Except.ok "https://1drv.ms/u/sAbc")) :=
  ⟨(claim_C2_routing (fun _ => Except.error "network unavailable")
      "https://contoso-my.sharepoint.cn/:u:/g/personal/alice_contoso_cn/XY16"
      (by decide) (by decide)).1 (by decide),
   (claim_C2_routing (fun s => Except.ok s) "https://1drv.ms/u/sAbc"
      (by decide) (by decide)).2 (by decide)⟩

/-- Claim C6: a `http(s)`-scheme URL whose (lower-cased) hostname does not
end with one of the six recognized suffixes is rejected with the
unsupported-host error, for every behaviour of the redirect expander. -/
theorem claim_C6_unsupported_host (expand : String → Except String String) (url : String)
    (h1 : startsHttpScheme url = true)
    (h2 : ∀ sfx ∈ supportedSuffixes,
      ¬ List.IsSuffix sfx.data (strLower (pyHostname url)).data) :
    parse_onedrive_direct_link expand url = Except.error unsupportedMsg := by
  have hsup : is_onedrive_supported_host url = false := by
    unfold is_onedrive_supported_host
    have hlow : lowerL (pyHostname url).data = (strLower (pyHostname url)).data := rfl
    by_cases hz : lowerL (pyHostname url).data = []
    · simp [hz]
    · rw [if_neg hz]
      rw [List.any_eq_false]
      intro sfx hsfx
      simp only [decide_eq_true_eq]
      rw [hlow]
      exact h2 sfx hsfx
  unfold parse_onedrive_direct_link
  simp [h1, hsup]

/-- Witness for C6: `evil-sharepoint.com.attacker.net` contains
`sharepoint.com` as a substring but ends with no recognized suffix, so it
is rejected. -/
theorem claim_C6_witness :
    parse_onedrive_direct_link (fun s => Except.ok s)
        "https://evil-sharepoint.com.attacker.net/f" = Except.error unsupportedMsg :=
  claim_C6_unsupported_host (fun s => Except.ok s)
    "https://evil-sharepoint.com.attacker.net/f" (by decide) (by decide)

/-- Claim C7 as literally stated fails: `HTTP://1drv.ms/x` does not start
with the lowercase `http://` or `https://`, yet classification succeeds
(the scheme check is case-insensitive) instead of raising malformed-input. -/
theorem claim_C7_counterexample :
    (¬ List.IsPrefix "http://".data "HTTP://1drv.ms/x".data ∧
     ¬ List.IsPrefix "https://".data "HTTP://1drv.ms/x".data) ∧
    parse_onedrive_direct_link (fun s => Except.ok s) "HTTP://1drv.ms/x"
      = Except.ok "http://1drv.ms/x?download=1" := by
  exact ⟨by decide, rfl⟩

/-- Claim C7 (amended): for every input that does not start with `http://`
or `https://` compared case-insensitively, classification fails with the
malformed-input error and the redirect expander is never consulted. -/
theorem claim_C7_malformed (expand : String → Except String String) (url : String)
    (h1 : ¬ List.IsPrefix "http://".data (lowerL url.data))
    (h2 : ¬ List.IsPrefix "https://".data (lowerL url.data)) :
    parse_onedrive_direct_link expand url = Except.error malformedMsg := by
  have hs : startsHttpScheme url = false := by
    unfold startsHttpScheme
    simp [h1, h2]
  unfold parse_onedrive_direct_link
  simp [hs]

/-- Witness for C7 (amended): an `ftp://` URL is rejected as malformed. -/
theorem claim_C7_witness :
    parse_onedrive_direct_link (fun s => Except.ok s) "ftp://example.com/f"
      = Except.error malformedMsg :=
  claim_C7_malformed (fun s => Except.ok s) "ftp://example.com/f" (by decide) (by decide)

/-! ### Query-string helper lemmas for the personal rewrite claims -/

theorem strExt {a b : String} (h : a.data = b.data) : a = b := by
  have h2 := congrArg strOf h
  rwa [strOf_data, strOf_data] at h2

theorem strOf_append (a b : List Char) : strOf (a ++ b) = strOf a ++ strOf b := rfl

/-- A query character that is neither a separator, nor decoded, nor a URL
delimiter. -/
abbrev queryChar (c : Char) : Prop := c ≠ '&' ∧ c ≠ '=' ∧ c ≠ '%' ∧ c ≠ '+' ∧ c ≠ '#'

theorem queryChar_qsChar {c : Char} (h : queryChar c) : qsChar c :=
  ⟨h.1, h.2.1, h.2.2.1, h.2.2.2.1⟩

/-- A character `urlencode` leaves unchanged. -/
abbrev encChar (c : Char) : Prop := alwaysSafe c = true

theorem encChar_queryChar {c : Char} (h : encChar c) : queryChar c := by
  refine ⟨?_, ?_, ?_, ?_, ?_⟩ <;> (intro e; subst e; revert h; decide)

theorem joinAmp_single (p : List Char × List Char) : joinAmp [p] = p.1 ++ '=' :: p.2 := rfl

theorem joinAmp_cons2 (p q : List Char × List Char) (ps : List (List Char × List Char)) :
    joinAmp (p :: q :: ps) = p.1 ++ '=' :: p.2 ++ '&' :: joinAmp (q :: ps) := rfl

theorem mem_joinAmp : ∀ {l : List (List Char × List Char)} {c : Char},
    c ∈ joinAmp l → (∃ p ∈ l, c ∈ p.1 ∨ c ∈ p.2) ∨ c = '=' ∨ c = '&'
  | [], c, h => by simp [joinAmp] at h
  | [p], c, h => by
    rw [joinAmp_single] at h
    simp only [List.mem_append, List.mem_cons] at h
    rcases h with h1 | h1 | h1
    · exact Or.inl ⟨p, List.mem_cons_self _ _, Or.inl h1⟩
    · exact Or.inr (Or.inl h1)
    · exact Or.inl ⟨p, List.mem_cons_self _ _, Or.inr h1⟩
  | p :: q :: ps, c, h => by
    rw [joinAmp_cons2] at h
    rcases List.mem_append.1 h with h1 | h1
    · rcases List.mem_append.1 h1 with h2 | h2
      · exact Or.inl ⟨p, List.mem_cons_self _ _, Or.inl h2⟩
      · rcases List.mem_cons.1 h2 with e | h3
        · exact Or.inr (Or.inl e)
        · exact Or.inl ⟨p, List.mem_cons_self _ _, Or.inr h3⟩
    · rcases List.mem_cons.1 h1 with e | h2
      · exact Or.inr (Or.inr e)
      · rcases mem_joinAmp h2 with ⟨q', hq', hc⟩ | e | e
        · exact Or.inl ⟨q', List.mem_cons_of_mem p hq', hc⟩
        · exact Or.inr (Or.inl e)
        · exact Or.inr (Or.inr e)

theorem joinAmp_ne_nil : ∀ {l : List (List Char × List Char)}, l ≠ [] → joinAmp l ≠ []
  | [], h => absurd rfl h
  | [p], _ => by rw [joinAmp_single]; simp
  | p :: q :: ps, _ => by rw [joinAmp_cons2]; simp

theorem joinAmp_append_single {y : List Char × List Char} :
    ∀ {l : List (List Char × List Char)}, l ≠ [] →
    joinAmp (l ++ [y]) = joinAmp l ++ '&' :: (y.1 ++ '=' :: y.2) := by
  intro l
  induction l with
  | nil => intro h; exact absurd rfl h
  | cons p t ih =>
    intro _
    cases t with
    | nil => simp [joinAmp_cons2, joinAmp_single]
    | cons q ts =>
      have ih2 : joinAmp (q :: (ts ++ [y]))
          = joinAmp (q :: ts) ++ '&' :: (y.1 ++ '=' :: y.2) := by
        have h0 := ih (by simp)
        rwa [List.cons_append] at h0
      calc joinAmp (p :: q :: ts ++ [y])
          = joinAmp (p :: (q :: (ts ++ [y]))) := by simp
        _ = p.1 ++ '=' :: p.2 ++ '&' :: joinAmp (q :: (ts ++ [y])) := joinAmp_cons2 ..
        _ = p.1 ++ '=' :: p.2 ++ '&' :: (joinAmp (q :: ts) ++ '&' :: (y.1 ++ '=' :: y.2)) := by
            rw [ih2]
        _ = (p.1 ++ '=' :: p.2 ++ '&' :: joinAmp (q :: ts)) ++ '&' :: (y.1 ++ '=' :: y.2) := by
            simp
        _ = joinAmp (p :: q :: ts) ++ '&' :: (y.1 ++ '=' :: y.2) := by rw [joinAmp_cons2]

theorem filter_all_true {α : Type} {p : α → Bool} {l : List α}
    (h : ∀ x ∈ l, p x = true) : l.filter p = l := by
  induction l with
  | nil => rfl
  | cons a t ih =>
    rw [List.filter_cons, if_pos (h a (List.mem_cons_self a t)),
      ih (fun x hx => h x (List.mem_cons_of_mem a hx))]

theorem hash_not_mem_joinQuery {ps : List (String × String)}
    (h : ∀ p ∈ ps, (∀ c ∈ p.1.data, queryChar c) ∧ (∀ c ∈ p.2.data, queryChar c)) :
    '#' ∉ (joinQuery ps).data := by
  rw [joinQuery, data_strOf]
  intro hm
  rcases mem_joinAmp hm with ⟨p, hp, hc⟩ | e | e
  · obtain ⟨q, hq, he⟩ := List.mem_map.1 hp
    subst he
    rcases hc with h1 | h1
    · exact ((h q hq).1 '#' h1).2.2.2.2 rfl
    · exact ((h q hq).2 '#' h1).2.2.2.2 rfl
  · exact absurd e (by decide)
  · exact absurd e (by decide)

theorem joinQuery_data_ne_nil {ps : List (String × String)} (h : ps ≠ []) :
    (joinQuery ps).data ≠ [] := by
  rw [joinQuery, data_strOf]
  exact joinAmp_ne_nil (by simpa using h)

theorem map_quote_safe (ps : List (String × String))
    (h : ∀ p ∈ ps, (∀ c ∈ p.1.data, encChar c) ∧ (∀ c ∈ p.2.data, encChar c)) :
    (ps.map fun p => (quotePlus p.1.data, quotePlus p.2.data))
      = ps.map fun p => (p.1.data, p.2.data) := by
  induction ps with
  | nil => rfl
  | cons p t ih =>
    rw [List.map_cons, List.map_cons,
      quotePlus_id (h p (List.mem_cons_self p t)).1,
      quotePlus_id (h p (List.mem_cons_self p t)).2,
      ih (fun q hq => h q (List.mem_cons_of_mem p hq))]

theorem urlencode_safe (ps : List (String × String))
    (h : ∀ p ∈ ps, (∀ c ∈ p.1.data, encChar c) ∧ (∀ c ∈ p.2.data, encChar c)) :
    urlencode ps = joinQuery ps := by
  unfold urlencode joinQuery
  rw [map_quote_safe ps h]

theorem pyGet_some_mem : ∀ {d : List (String × String)} {k v : String},
    pyGet d k = some v → (k, v) ∈ d := by
  intro d
  induction d with
  | nil => intro k v h; exact absurd h (by simp [pyGet])
  | cons p t ih =>
    intro k v h
    rw [pyGet] at h
    by_cases hp : p.1 = k
    · rw [if_pos (by simp [hp])] at h
      have hv : v = p.2 := (Option.some.injEq _ _ ▸ h).symm
      have : (k, v) = p := by
        rw [hv, ← hp]
      rw [this]
      exact List.mem_cons_self p t
    · rw [if_neg (by simp [hp])] at h
      exact List.mem_cons_of_mem p (ih h)

theorem pyGet_of_mem_nodup : ∀ {d : List (String × String)} {k v : String},
    (d.map Prod.fst).Nodup → (k, v) ∈ d → pyGet d k = some v := by
  intro d
  induction d with
  | nil => intro k v _ hm; exact absurd hm (List.not_mem_nil _)
  | cons p t ih =>
    intro k v hnd hm
    rw [List.map_cons, List.nodup_cons] at hnd
    rcases List.mem_cons.1 hm with e | hm2
    · rw [pyGet, if_pos (by rw [← e]; simp)]
      rw [← e]
    · have hk : p.1 ≠ k := by
        intro e
        exact hnd.1 (e ▸ List.mem_map_of_mem Prod.fst hm2)
      rw [pyGet, if_neg (by simp [hk])]
      exact ih hnd.2 hm2

/-! ### Claim C3: the `download=1` fallback -/

/-- Claim C3 as stated fails: duplicate query keys are not preserved, since
the fallback rebuilds the query from `dict(parse_qsl(...))`.  On
`?a=1&a=2` the first value is lost, so the output is not the input with
`download=1` appended. -/
theorem claim_C3_counterexample :
    ensure_download_param_fallback "https://onedrive.live.com/f?a=1&a=2#frag"
      = "https://onedrive.live.com/f?a=2&download=1#frag" ∧
    ("https://onedrive.live.com/f?a=2&download=1#frag" : String)
      ≠ "https://onedrive.live.com/f?a=1&a=2&download=1#frag" :=
  ⟨rfl, by decide⟩

/-- Claim C3 (amended): on an expanded personal URL whose query has no
`redeem` and not both `resid` and `authkey`, whose parameters have distinct
keys, non-empty URL-safe values, the fallback appends `download=1` to the
query exactly when no case-insensitive `download` key exists (and leaves
the URL unchanged when one does), preserving the remaining parameters in
order together with scheme, host, path and fragment. -/
theorem claim_C3_fallback (host path frag : String) (t : List Char)
    (ps : List (String × String))
    (hh0 : host.data ≠ []) (hh : ∀ c ∈ host.data, netChar c = true)
    (hpath : path.data = '/' :: t) (hp : ∀ c ∈ path.data, plainPathChar c)
    (hfrag : frag.data ≠ [])
    (hps0 : ps ≠ [])
    (hcs : ∀ p ∈ ps, (∀ c ∈ p.1.data, encChar c) ∧ (∀ c ∈ p.2.data, encChar c))
    (hvals : ∀ p ∈ ps, ¬ p.2 = "")
    (hnd : (ps.map Prod.fst).Nodup)
    (hnr : ∀ p ∈ ps, p.1 ≠ "redeem")
    (hna : ¬((∃ p ∈ ps, p.1 = "resid") ∧ ∃ p ∈ ps, p.1 = "authkey")) :
    ((∀ p ∈ ps, strLower p.1 ≠ "download") →
      ensure_download_param_fallback
          ("https://" ++ host ++ path ++ "?" ++ joinQuery ps ++ "#" ++ frag)
        = "https://" ++ host ++ path ++ "?" ++ (joinQuery ps ++ "&download=1") ++ "#" ++ frag) ∧
    ((∃ p ∈ ps, strLower p.1 = "download") →
      ensure_download_param_fallback
          ("https://" ++ host ++ path ++ "?" ++ joinQuery ps ++ "#" ++ frag)
        = "https://" ++ host ++ path ++ "?" ++ joinQuery ps ++ "#" ++ frag) := by
  have hqc : ∀ p ∈ ps, (∀ c ∈ p.1.data, queryChar c) ∧ (∀ c ∈ p.2.data, queryChar c) :=
    fun p hp => ⟨fun c hc => encChar_queryChar ((hcs p hp).1 c hc),
      fun c hc => encChar_queryChar ((hcs p hp).2 c hc)⟩
  have hqh : '#' ∉ (joinQuery ps).data := hash_not_mem_joinQuery hqc
  have hparse := urlparse_https_q_frag host path (joinQuery ps) frag t hh hpath hp hqh
  have hqsl : pyParseQslStr (joinQuery ps) = ps := by
    rw [pyParseQslStr_joinQuery ps (fun p hp => ⟨fun c hc => queryChar_qsChar ((hqc p hp).1 c hc),
      fun c hc => queryChar_qsChar ((hqc p hp).2 c hc)⟩)]
    exact filter_all_true (fun p hp => by simp [hvals p hp])
  have hdict : dictOfList ps = ps := dictOfList_nodup ps hnd
  constructor
  · intro hdl
    have hany : (ps.any fun p => strLower p.1 == "download") = false := by
      rw [List.any_eq_false]
      intro p hp
      simp [hdl p hp]
    have hfresh : dictInsert ps "download" "1" = ps ++ [("download", "1")] :=
      dictInsert_fresh (fun p hp e => hdl p hp (by rw [e]; decide))
    have hurl : urlencode (ps ++ [("download", "1")]) = joinQuery ps ++ "&download=1" := by
      rw [urlencode_safe (ps ++ [("download", "1")]) (by
        intro p hp
        rcases List.mem_append.1 hp with h1 | h1
        · exact hcs p h1
        · have : p = ("download", "1") := by simpa using h1
          rw [this]
          exact ⟨by decide, by decide⟩)]
      unfold joinQuery
      simp only [List.map_append, List.map_cons, List.map_nil]
      rw [joinAmp_append_single (by simpa using hps0)]
      rw [strOf_append]
      rfl
    unfold ensure_download_param_fallback
    rw [hparse]
    dsimp only
    rw [hqsl, hdict, hany]
    simp only [Bool.false_eq_true, if_false]
    rw [hfresh, hurl]
    exact urlunparse_https_frag host path (joinQuery ps ++ "&download=1") frag t hh0 hpath
      (by simp [data_append]) hfrag
  · rintro ⟨p0, hp0, he0⟩
    have hany : (ps.any fun p => strLower p.1 == "download") = true :=
      List.any_eq_true.2 ⟨p0, hp0, by simp [he0]⟩
    have hurl2 : urlencode ps = joinQuery ps := urlencode_safe ps hcs
    unfold ensure_download_param_fallback
    rw [hparse]
    dsimp only
    rw [hqsl, hdict, hany]
    simp only [if_true]
    rw [hurl2]
    exact urlunparse_https_frag host path (joinQuery ps) frag t hh0 hpath
      (joinQuery_data_ne_nil hps0) hfrag

/-- Witness for C3 (amended), both branches at concrete inputs. -/
theorem claim_C3_witness :
    ensure_download_param_fallback "https://onedrive.live.com/f?a=1&b=2#frag"
      = "https://onedrive.live.com/f?a=1&b=2&download=1#frag" ∧
    ensure_download_param_fallback "https://onedrive.live.com/f?a=1&Download=0#frag"
      = "https://onedrive.live.com/f?a=1&Download=0#frag" := by
  constructor
  · exact (claim_C3_fallback "onedrive.live.com" "/f" "frag" ['f'] [("a", "1"), ("b", "2")]
      (by decide) (by decide) (by decide) (by decide) (by decide) (by decide) (by decide)
      (by decide) (by decide) (by decide) (by decide)).1 (by decide)
  · exact (claim_C3_fallback "onedrive.live.com" "/f" "frag" ['f'] [("a", "1"), ("Download", "0")]
      (by decide) (by decide) (by decide) (by decide) (by decide) (by decide) (by decide)
      (by decide) (by decide) (by decide) (by decide)).2 (by decide)

/-! ### Claim C4: the `redeem` branch -/

/-- Claim C4: whenever the expanded URL's query holds a (non-empty-valued)
`redeem` parameter, the personal rewrite returns
`https://dlink.host/1drv/<redeem-value>` — regardless of any `resid`,
`authkey` or other parameters around it (first match wins). -/
theorem claim_C4_redeem (host path : String) (t : List Char)
    (ps1 ps2 : List (String × String)) (rv : String)
    (hh : ∀ c ∈ host.data, netChar c = true)
    (hpath : path.data = '/' :: t) (hp : ∀ c ∈ path.data, plainPathChar c)
    (hcs : ∀ p ∈ ps1 ++ ("redeem", rv) :: ps2,
      (∀ c ∈ p.1.data, queryChar c) ∧ (∀ c ∈ p.2.data, queryChar c))
    (hrv : rv ≠ "")
    (h2 : ∀ p ∈ ps2, p.1 ≠ "redeem") :
    convert_personal_onedrive_to_direct_link
        ("https://" ++ host ++ path ++ "?" ++ joinQuery (ps1 ++ ("redeem", rv) :: ps2))
      = "https://dlink.host/1drv/" ++ rv := by
  have hqh : '#' ∉ (joinQuery (ps1 ++ ("redeem", rv) :: ps2)).data :=
    hash_not_mem_joinQuery hcs
  have hparse := urlparse_https_q host path (joinQuery (ps1 ++ ("redeem", rv) :: ps2)) t
    hh hpath hp hqh
  have hqsl : pyParseQslStr (joinQuery (ps1 ++ ("redeem", rv) :: ps2))
      = ps1.filter (fun p => !(p.2 == "")) ++ ("redeem", rv) :: ps2.filter (fun p => !(p.2 == "")) := by
    rw [pyParseQslStr_joinQuery _ (fun p hp => ⟨fun c hc => queryChar_qsChar ((hcs p hp).1 c hc),
      fun c hc => queryChar_qsChar ((hcs p hp).2 c hc)⟩)]
    rw [List.filter_append, List.filter_cons]
    simp [hrv]
  have hget : pyGet (dictOfList (ps1.filter (fun p => !(p.2 == ""))
      ++ ("redeem", rv) :: ps2.filter (fun p => !(p.2 == "")))) "redeem" = some rv :=
    pyGet_dictOfList_last _ _ _ _ (fun p hp =>
      h2 p (List.mem_of_mem_filter hp))
  unfold convert_personal_onedrive_to_direct_link
  rw [hparse]
  dsimp only
  rw [hqsl, hget]

/-- Witness for C4: `?redeem=ABC123` (with `resid`/`authkey` also present,
showing the priority) yields `https://dlink.host/1drv/ABC123`. -/
theorem claim_C4_witness :
    convert_personal_onedrive_to_direct_link
        "https://onedrive.live.com/f?redeem=ABC123&resid=X&authkey=Y"
      = "https://dlink.host/1drv/ABC123" :=
  claim_C4_redeem "onedrive.live.com" "/f" ['f'] [] [("resid", "X"), ("authkey", "Y")] "ABC123"
    (by decide) (by decide) (by decide) (by decide) (by decide) (by decide)

/-! ### Claim C5: the `resid`/`authkey` branch -/

/-- Claim C5: with no `redeem` parameter but both `resid` and `authkey`
present (non-empty values, distinct keys), the personal rewrite returns
`https://onedrive.live.com/download?resid=<resid>&authkey=<authkey>`. -/
theorem claim_C5_resid_authkey (host path : String) (t : List Char)
    (ps : List (String × String)) (r a : String)
    (hh : ∀ c ∈ host.data, netChar c = true)
    (hpath : path.data = '/' :: t) (hp : ∀ c ∈ path.data, plainPathChar c)
    (hcs : ∀ p ∈ ps, (∀ c ∈ p.1.data, queryChar c) ∧ (∀ c ∈ p.2.data, queryChar c))
    (hvals : ∀ p ∈ ps, ¬ p.2 = "")
    (hnd : (ps.map Prod.fst).Nodup)
    (hnr : ∀ p ∈ ps, p.1 ≠ "redeem")
    (hres : ("resid", r) ∈ ps)
    (hauth : ("authkey", a) ∈ ps) :
    convert_personal_onedrive_to_direct_link
        ("https://" ++ host ++ path ++ "?" ++ joinQuery ps)
      = "https://onedrive.live.com/download?resid=" ++ r ++ "&authkey=" ++ a := by
  have hqh : '#' ∉ (joinQuery ps).data := hash_not_mem_joinQuery hcs
  have hparse := urlparse_https_q host path (joinQuery ps) t hh hpath hp hqh
  have hqsl : pyParseQslStr (joinQuery ps) = ps := by
    rw [pyParseQslStr_joinQuery ps (fun p hp => ⟨fun c hc => queryChar_qsChar ((hcs p hp).1 c hc),
      fun c hc => queryChar_qsChar ((hcs p hp).2 c hc)⟩)]
    exact filter_all_true (fun p hp => by simp [hvals p hp])
  have hdict : dictOfList ps = ps := dictOfList_nodup ps hnd
  have hnone : pyGet ps "redeem" = none := pyGet_not_mem hnr
  have hr : pyGet ps "resid" = some r := pyGet_of_mem_nodup hnd hres
  have ha : pyGet ps "authkey" = some a := pyGet_of_mem_nodup hnd hauth
  unfold convert_personal_onedrive_to_direct_link
  rw [hparse]
  dsimp only
  rw [hqsl, hdict, hnone, hr, ha]

/-- Witness for C5: the spec's example query `?resid=111!222&authkey=xyz`. -/
theorem claim_C5_witness :
    convert_personal_onedrive_to_direct_link
        "https://onedrive.live.com/f?resid=111!222&authkey=xyz"
      = "https://onedrive.live.com/download?resid=111!222&authkey=xyz" :=
  claim_C5_resid_authkey "onedrive.live.com" "/f" ['f'] [("resid", "111!222"), ("authkey", "xyz")]
    "111!222" "xyz" (by decide) (by decide) (by decide) (by decide) (by decide) (by decide)
    (by decide) (by decide) (by decide)

/-! ### Claim C10: empty-valued parameters are ignored -/

/-- Claim C10: empty-valued query parameters are invisible to the personal
rewrite — an empty-valued `redeem` (and empty-valued `resid`/`authkey`) do
not fire their branches, control falls through to the fallback, and the
fallback drops every empty-valued parameter from the rebuilt URL. -/
theorem claim_C10_empty_values (host path : String) (t : List Char)
    (ps : List (String × String))
    (hh0 : host.data ≠ []) (hh : ∀ c ∈ host.data, netChar c = true)
    (hpath : path.data = '/' :: t) (hp : ∀ c ∈ path.data, plainPathChar c)
    (hcs : ∀ p ∈ ps, (∀ c ∈ p.1.data, encChar c) ∧ (∀ c ∈ p.2.data, encChar c))
    (hred : ∀ p ∈ ps, p.1 = "redeem" → p.2 = "")
    (hra : ¬((∃ p ∈ ps, p.1 = "resid" ∧ p.2 ≠ "") ∧ ∃ p ∈ ps, p.1 = "authkey" ∧ p.2 ≠ ""))
    (hnd : ((ps.filter (fun p => !(p.2 == ""))).map Prod.fst).Nodup)
    (hdl : ∀ p ∈ ps, strLower p.1 ≠ "download")
    (hne : ps.filter (fun p => !(p.2 == "")) ≠ []) :
    convert_personal_onedrive_to_direct_link
        ("https://" ++ host ++ path ++ "?" ++ joinQuery ps)
      = ensure_download_param_fallback ("https://" ++ host ++ path ++ "?" ++ joinQuery ps) ∧
    ensure_download_param_fallback ("https://" ++ host ++ path ++ "?" ++ joinQuery ps)
      = "https://" ++ host ++ path ++ "?"
          ++ (joinQuery (ps.filter (fun p => !(p.2 == ""))) ++ "&download=1") := by
  have hqc : ∀ p ∈ ps, (∀ c ∈ p.1.data, queryChar c) ∧ (∀ c ∈ p.2.data, queryChar c) :=
    fun p hp => ⟨fun c hc => encChar_queryChar ((hcs p hp).1 c hc),
      fun c hc => encChar_queryChar ((hcs p hp).2 c hc)⟩
  have hqh : '#' ∉ (joinQuery ps).data := hash_not_mem_joinQuery hqc
  have hparse := urlparse_https_q host path (joinQuery ps) t hh hpath hp hqh
  have hqsl : pyParseQslStr (joinQuery ps) = ps.filter (fun p => !(p.2 == "")) :=
    pyParseQslStr_joinQuery ps (fun p hp => ⟨fun c hc => queryChar_qsChar ((hqc p hp).1 c hc),
      fun c hc => queryChar_qsChar ((hqc p hp).2 c hc)⟩)
  have hmemf : ∀ p ∈ ps.filter (fun p => !(p.2 == "")), p ∈ ps ∧ ¬ p.2 = "" := by
    intro p hp
    have h1 := List.mem_of_mem_filter hp
    have h2 := List.of_mem_filter hp
    exact ⟨h1, by simpa using h2⟩
  have hdict : dictOfList (ps.filter (fun p => !(p.2 == "")))
      = ps.filter (fun p => !(p.2 == "")) := dictOfList_nodup _ hnd
  have hnone : pyGet (ps.filter (fun p => !(p.2 == ""))) "redeem" = none :=
    pyGet_not_mem (fun p hp e => (hmemf p hp).2 (hred p (hmemf p hp).1 e))
  have hfall : ensure_download_param_fallback ("https://" ++ host ++ path ++ "?" ++ joinQuery ps)
      = "https://" ++ host ++ path ++ "?"
          ++ (joinQuery (ps.filter (fun p => !(p.2 == ""))) ++ "&download=1") := by
    have hanyf : ((ps.filter (fun p => !(p.2 == ""))).any
        fun p => strLower p.1 == "download") = false := by
      rw [List.any_eq_false]
      intro p hp
      simp [hdl p (hmemf p hp).1]
    have hfresh : dictInsert (ps.filter (fun p => !(p.2 == ""))) "download" "1"
        = ps.filter (fun p => !(p.2 == "")) ++ [("download", "1")] :=
      dictInsert_fresh (fun p hp e => hdl p (hmemf p hp).1 (by rw [e]; decide))
    have hurl : urlencode (ps.filter (fun p => !(p.2 == "")) ++ [("download", "1")])
        = joinQuery (ps.filter (fun p => !(p.2 == ""))) ++ "&download=1" := by
      rw [urlencode_safe _ (by
        intro p hp
        rcases List.mem_append.1 hp with h1 | h1
        · exact hcs p (hmemf p h1).1
        · have : p = ("download", "1") := by simpa using h1
          rw [this]
          exact ⟨by decide, by decide⟩)]
      unfold joinQuery
      simp only [List.map_append, List.map_cons, List.map_nil]
      rw [joinAmp_append_single (by simpa using hne)]
      rw [strOf_append]
      rfl
    unfold ensure_download_param_fallback
    rw [hparse]
    dsimp only
    rw [hqsl, hdict, hanyf]
    simp only [Bool.false_eq_true, if_false]
    rw [hfresh, hurl]
    exact urlunparse_https_nofrag host path
      (joinQuery (ps.filter (fun p => !(p.2 == ""))) ++ "&download=1") t hh0 hpath
      (by simp [data_append])
  refine ⟨?_, hfall⟩
  unfold convert_personal_onedrive_to_direct_link
  rw [hparse]
  dsimp only
  rw [hqsl, hdict, hnone]
  cases hr : pyGet (ps.filter (fun p => !(p.2 == ""))) "resid" with
  | none => rfl
  | some x =>
    cases ha : pyGet (ps.filter (fun p => !(p.2 == ""))) "authkey" with
    | none => rfl
    | some y =>
      exfalso
      apply hra
      constructor
      · have hm := pyGet_some_mem hr
        exact ⟨("resid", x), (hmemf _ hm).1, rfl, (hmemf _ hm).2⟩
      · have hm := pyGet_some_mem ha
        exact ⟨("authkey", y), (hmemf _ hm).1, rfl, (hmemf _ hm).2⟩

/-- Witness for C10: empty-valued `redeem`, `resid` and `authkey` are all
dropped and the fallback fires. -/
theorem claim_C10_witness :
    convert_personal_onedrive_to_direct_link
        "https://onedrive.live.com/f?redeem=&resid=&authkey=&a=b"
      = ensure_download_param_fallback "https://onedrive.live.com/f?redeem=&resid=&authkey=&a=b" ∧
    ensure_download_param_fallback "https://onedrive.live.com/f?redeem=&resid=&authkey=&a=b"
      = "https://onedrive.live.com/f?a=b&download=1" :=
  claim_C10_empty_values "onedrive.live.com" "/f" ['f']
    [("redeem", ""), ("resid", ""), ("authkey", ""), ("a", "b")]
    (by decide) (by decide) (by decide) (by decide) (by decide) (by decide) (by decide)
    (by decide) (by decide) (by decide)

/-! ### Claim C9: the history store -/

theorem findFirstIdx_eq_none {α : Type} {p : α → Bool} :
    ∀ {l : List α}, findFirstIdx p l = none → ∀ e ∈ l, p e = false := by
  intro l
  induction l with
  | nil => intro _ e he; exact absurd he (List.not_mem_nil e)
  | cons a t ih =>
    intro hf e he
    rw [findFirstIdx] at hf
    by_cases ha : p a = true
    · rw [if_pos ha] at hf
      exact absurd hf (by simp)
    · rw [if_neg ha] at hf
      rcases List.mem_cons.1 he with e1 | e2
      · rw [e1]
        exact Bool.not_eq_true _ ▸ ha
      · exact ih (Option.map_eq_none'.1 hf) e e2

theorem findFirstIdx_eq_some {α : Type} {p : α → Bool} :
    ∀ {l : List α} {i : Nat}, findFirstIdx p l = some i →
    ∃ pre a post, l = pre ++ a :: post ∧ pre.length = i ∧ p a = true ∧
      ∀ e ∈ pre, p e = false := by
  intro l
  induction l with
  | nil => intro i hf; exact absurd hf (by simp [findFirstIdx])
  | cons a t ih =>
    intro i hf
    rw [findFirstIdx] at hf
    by_cases ha : p a = true
    · rw [if_pos ha] at hf
      refine ⟨[], a, t, rfl, ?_, ha, fun e he => absurd he (List.not_mem_nil e)⟩
      simpa using (Option.some.injEq _ _ ▸ hf)
    · rw [if_neg ha] at hf
      obtain ⟨j, hj, hij⟩ := Option.map_eq_some'.1 hf
      obtain ⟨pre, b, post, hdec, hlen, hb, hpre⟩ := ih hj
      refine ⟨a :: pre, b, post, by simp [hdec], by simp [hlen, hij], hb, ?_⟩
      intro e he
      rcases List.mem_cons.1 he with e1 | e2
      · rw [e1]
        exact Bool.not_eq_true _ ▸ ha
      · exact hpre e e2

theorem findFirstIdx_append_first {α : Type} {p : α → Bool} {pre post : List α} {a : α}
    (hpre : ∀ e ∈ pre, p e = false) (ha : p a = true) :
    findFirstIdx p (pre ++ a :: post) = some pre.length := by
  induction pre with
  | nil => simp [findFirstIdx, ha]
  | cons c t ih =>
    rw [List.cons_append, findFirstIdx,
      if_neg (by rw [hpre c (List.mem_cons_self c t)]; simp),
      ih (fun e he => hpre e (List.mem_cons_of_mem c he))]
    rfl

theorem set_append_length {α : Type} (pre : List α) (a x : α) (post : List α) :
    (pre ++ a :: post).set pre.length x = pre ++ x :: post := by
  induction pre with
  | nil => rfl
  | cons c t ih => simp [List.set, ih]

theorem filter_all_false {α : Type} {p : α → Bool} {l : List α}
    (h : ∀ x ∈ l, p x = false) : l.filter p = [] := by
  induction l with
  | nil => rfl
  | cons a t ih =>
    rw [List.filter_cons, h a (List.mem_cons_self a t)]
    simp only [Bool.false_eq_true, if_false]
    exact ih (fun x hx => h x (List.mem_cons_of_mem a hx))

theorem take_length_sub_one {α : Type} : ∀ (l : List α), l.take (l.length - 1) = l.dropLast := by
  intro l
  induction l with
  | nil => rfl
  | cons a t ih =>
    cases t with
    | nil => rfl
    | cons b ts =>
      show (a :: b :: ts).take ((b :: ts).length) = (a :: b :: ts).dropLast
      rw [List.length_cons, List.take_succ_cons, List.dropLast_cons₂]
      have ih2 : (b :: ts).take ts.length = (b :: ts).dropLast := by simpa using ih
      rw [ih2]

/-- Claim C9: starting from a well-formed store (unique urls, at most 100
entries), a save keeps urls unique and the length bounded by 100; saving
two items with the same url leaves exactly one entry for that url, the
later item; and saving a 101st distinct entry drops the oldest entry,
keeping the newest 100 in most-recent-first order. -/
theorem save_cons_same_url (rest : List HistoryItem) (i1 i2 : HistoryItem)
    (hurl : i1.url = i2.url) (hrest : rest.length ≤ 99)
    (hrurls : ∀ e ∈ rest, e.url ≠ i2.url) :
    (save_history_update (i1 :: rest) i2).filter (fun e => e.url == i2.url) = [i2] := by
  have hf2 : findFirstIdx (fun e => e.url == i2.url) (i1 :: rest) = some 0 := by
    rw [findFirstIdx, if_pos (by simp [hurl])]
  unfold save_history_update
  rw [hf2]
  dsimp only
  rw [show (i1 :: rest).set 0 i2 = i2 :: rest from rfl]
  rw [if_neg (by simp; omega)]
  rw [List.filter_cons, if_pos (by simp)]
  rw [filter_all_false (fun e he => by simp [hrurls e he])]

/-- Claim C9: starting from a well-formed store (unique urls, at most 100
entries), a save keeps urls unique and the length bounded by 100; saving
two items with the same url leaves exactly one entry for that url, the
later item; and saving a 101st distinct entry drops the oldest entry,
keeping the newest 100 in most-recent-first order. -/
theorem claim_C9_history (h : List HistoryItem) (i1 i2 : HistoryItem)
    (hnd : (h.map HistoryItem.url).Nodup)
    (hlen : h.length ≤ 100)
    (hurl : i1.url = i2.url) :
    ((save_history_update h i1).map HistoryItem.url).Nodup ∧
    (save_history_update h i1).length ≤ 100 ∧
    (save_history_update (save_history_update h i1) i2).filter (fun e => e.url == i2.url)
      = [i2] ∧
    (h.length = 100 → (∀ e ∈ h, e.url ≠ i1.url) → save_history_update h i1 = i1 :: h.dropLast) := by
  cases hf : findFirstIdx (fun e => e.url == i1.url) h with
  | some i =>
    obtain ⟨pre, a, post, hdec, hlenpre, hpa, hpre⟩ := findFirstIdx_eq_some hf
    have hau : a.url = i1.url := by simpa using hpa
    have hlen1 : (pre ++ i1 :: post).length = h.length := by rw [hdec]; simp
    have hsave1 : save_history_update h i1 = pre ++ i1 :: post := by
      unfold save_history_update
      rw [hf]
      dsimp only
      rw [hdec, ← hlenpre, set_append_length]
      rw [if_neg (by rw [hlen1]; omega)]
    have hmap1 : (pre ++ i1 :: post).map HistoryItem.url = h.map HistoryItem.url := by
      rw [hdec]
      simp [hau]
    have hndm := hnd
    rw [hdec] at hndm
    simp only [List.map_append, List.map_cons] at hndm
    have hnotin : a.url ∉ post.map HistoryItem.url :=
      (List.nodup_cons.1 (List.nodup_append.1 hndm).2.1).1
    refine ⟨?_, ?_, ?_, ?_⟩
    · rw [hsave1, hmap1]
      exact hnd
    · rw [hsave1, hlen1]
      exact hlen
    · have hpre2 : ∀ e ∈ pre, (e.url == i2.url) = false := by
        intro e he
        have h0 := hpre e he
        simp only [beq_eq_false_iff_ne, ne_eq] at h0 ⊢
        intro e2
        exact h0 (e2.trans hurl.symm)
      have hf2 : findFirstIdx (fun e => e.url == i2.url) (pre ++ i1 :: post)
          = some pre.length := findFirstIdx_append_first hpre2 (by simp [hurl])
      have hsave2 : save_history_update (pre ++ i1 :: post) i2 = pre ++ i2 :: post := by
        unfold save_history_update
        rw [hf2]
        dsimp only
        rw [set_append_length]
        rw [if_neg (by
          have he2 : (pre ++ i2 :: post).length = h.length := by rw [hdec]; simp
          rw [he2]
          omega)]
      rw [hsave1, hsave2, List.filter_append, List.filter_cons, if_pos (by simp)]
      have hpost : ∀ e ∈ post, (e.url == i2.url) = false := by
        intro e he
        simp only [beq_eq_false_iff_ne, ne_eq]
        intro e2
        apply hnotin
        have hae : a.url = e.url := by rw [hau, hurl, ← e2]
        rw [hae]
        exact List.mem_map_of_mem _ he
      rw [filter_all_false hpre2, filter_all_false hpost]
      rfl
    · intro _ habs
      exfalso
      have hmem : a ∈ h := by
        rw [hdec]
        exact List.mem_append.2 (Or.inr (List.mem_cons_self a post))
      exact habs a hmem hau
  | none =>
    have hall : ∀ e ∈ h, (e.url == i1.url) = false := findFirstIdx_eq_none hf
    have hurls : ∀ e ∈ h, e.url ≠ i1.url := by
      intro e he
      have := hall e he
      simpa using this
    by_cases hc : h.length + 1 > 100
    · have h100 : h.length = 100 := by omega
      have hsave1 : save_history_update h i1 = i1 :: h.dropLast := by
        unfold save_history_update
        rw [hf]
        dsimp only
        rw [if_pos (by simp only [List.length_cons]; omega)]
        rw [show (100 : Nat) = 99 + 1 from rfl, List.take_succ_cons]
        congr 1
        rw [show (99 : Nat) = h.length - 1 from by omega, take_length_sub_one]
      have hsub : ∀ e ∈ h.dropLast, e ∈ h := fun e he => List.dropLast_sublist h |>.subset he
      have hlen2 : (i1 :: h.dropLast).length = 100 := by
        simp [List.length_dropLast, h100]
      refine ⟨?_, ?_, ?_, fun _ _ => hsave1⟩
      · rw [hsave1, List.map_cons, List.nodup_cons]
        constructor
        · intro hm
          obtain ⟨e, he, hee⟩ := List.mem_map.1 hm
          exact hurls e (hsub e he) hee
        · exact List.Nodup.sublist ((List.dropLast_sublist h).map HistoryItem.url) hnd
      · rw [hsave1, hlen2]
      · rw [hsave1]
        exact save_cons_same_url h.dropLast i1 i2 hurl
          (by rw [List.length_dropLast, h100])
          (fun e he hee => hurls e (hsub e he) (hee.trans hurl.symm))
    · have hsave1 : save_history_update h i1 = i1 :: h := by
        unfold save_history_update
        rw [hf]
        dsimp only
        rw [if_neg (by simp only [List.length_cons]; omega)]
      refine ⟨?_, ?_, ?_, ?_⟩
      · rw [hsave1, List.map_cons, List.nodup_cons]
        constructor
        · intro hm
          obtain ⟨e, he, hee⟩ := List.mem_map.1 hm
          exact hurls e he hee
        · exact hnd
      · rw [hsave1]
        simp only [List.length_cons]
        omega
      · rw [hsave1]
        exact save_cons_same_url h i1 i2 hurl (by omega)
          (fun e he hee => hurls e he (hee.trans hurl.symm))
      · intro h100
        exfalso
        omega

/-- Witness for C9 at a concrete store: two saves with the same url leave
one entry, and the 101st distinct entry evicts the oldest. -/
theorem claim_C9_witness :
    (((save_history_update [] ⟨1, "u1", "r", "t", "o"⟩).map HistoryItem.url).Nodup ∧
      (save_history_update [] ⟨1, "u1", "r", "t", "o"⟩).length ≤ 100 ∧
      (save_history_update (save_history_update [] ⟨1, "u1", "r", "t", "o"⟩)
          ⟨2, "u1", "r2", "t2", "o2"⟩).filter (fun e => e.url == "u1") =
        [⟨2, "u1", "r2", "t2", "o2"⟩] ∧
      (([] : List HistoryItem).length = 100 →
        (∀ e ∈ ([] : List HistoryItem), e.url ≠ "u1") →
        save_history_update [] ⟨1, "u1", "r", "t", "o"⟩ = ⟨1, "u1", "r", "t", "o"⟩ :: [].dropLast)) := by
  have hc := claim_C9_history [] ⟨1, "u1", "r", "t", "o"⟩ ⟨2, "u1", "r2", "t2", "o2"⟩
    (by decide) (by decide) (by decide)
  exact hc

end Spec2Proof
